import Mathlib

/-!
Verification development for the file-explorer server.

The server's request handlers are shallowly embedded here.  JavaScript
strings are modelled as `List Char` (named `Str`), and the string
operations the handlers use (`trim`, `toLowerCase`, `split`, regex
replaces, `path.resolve`, …) are given explicit executable definitions
that mirror the JavaScript semantics.
-/

namespace FileExplorer

/-- JavaScript strings are modelled as lists of characters. -/
abbrev Str := List Char

/-- Whitespace characters recognised by `String.prototype.trim`
(ASCII subset, which is all this server's inputs use). -/
def isWs (c : Char) : Bool :=
  c = ' ' ∨ c = '\t' ∨ c = '\n' ∨ c = '\r' ∨ c = '\x0b' ∨ c = '\x0c'

/-- Model of `s.trimStart()`. -/
def trimLeftWs (l : Str) : Str := l.dropWhile isWs

/-- Model of `s.trimEnd()`. -/
def trimRightWs (l : Str) : Str := (l.reverse.dropWhile isWs).reverse

/-- Model of `s.trim()`. -/
def jsTrim (l : Str) : Str := trimRightWs (trimLeftWs l)

/-- Model of JavaScript string truthiness for optional string fields:
`undefined` and the empty string are falsy. -/
def jsTruthy : Option Str → Bool
  | none => false
  | some s => s ≠ []

/-- Lower-casing of a single character as done by
`String.prototype.toLowerCase` on the ASCII range (the only range the
handlers' comparisons depend on). -/
def jsLowerChar : Char → Char
  | 'A' => 'a' | 'B' => 'b' | 'C' => 'c' | 'D' => 'd' | 'E' => 'e'
  | 'F' => 'f' | 'G' => 'g' | 'H' => 'h' | 'I' => 'i' | 'J' => 'j'
  | 'K' => 'k' | 'L' => 'l' | 'M' => 'm' | 'N' => 'n' | 'O' => 'o'
  | 'P' => 'p' | 'Q' => 'q' | 'R' => 'r' | 'S' => 's' | 'T' => 't'
  | 'U' => 'u' | 'V' => 'v' | 'W' => 'w' | 'X' => 'x' | 'Y' => 'y'
  | 'Z' => 'z'
  | c => c

/-- Upper-casing of a single character as done by
`String.prototype.toUpperCase` on the ASCII range. -/
def jsUpperChar : Char → Char
  | 'a' => 'A' | 'b' => 'B' | 'c' => 'C' | 'd' => 'D' | 'e' => 'E'
  | 'f' => 'F' | 'g' => 'G' | 'h' => 'H' | 'i' => 'I' | 'j' => 'J'
  | 'k' => 'K' | 'l' => 'L' | 'm' => 'M' | 'n' => 'N' | 'o' => 'O'
  | 'p' => 'P' | 'q' => 'Q' | 'r' => 'R' | 's' => 'S' | 't' => 'T'
  | 'u' => 'U' | 'v' => 'V' | 'w' => 'W' | 'x' => 'X' | 'y' => 'Y'
  | 'z' => 'Z'
  | c => c

/-- Model of `s.toLowerCase()`. -/
def lowerStr (l : Str) : Str := l.map jsLowerChar

/-- Model of `s.toUpperCase()`. -/
def upperStr (l : Str) : Str := l.map jsUpperChar

/-- Splitting a string on a separator character, as
`String.prototype.split` does with a one-character separator: the result
is never empty, and empty pieces are kept. -/
def splitOnChar (sep : Char) : Str → List Str
  | [] => [[]]
  | c :: cs =>
    if c = sep then [] :: splitOnChar sep cs
    else
      match splitOnChar sep cs with
      | [] => [[c]]
      | s :: ss => (c :: s) :: ss

/-- Joining pieces with a separator character (inverse of `splitOnChar`). -/
def joinWithChar (sep : Char) : List Str → Str
  | [] => []
  | [s] => s
  | s :: ss => s ++ sep :: joinWithChar sep ss

/-- Splitting a path on `/`. -/
def splitSl (l : Str) : List Str := splitOnChar '/' l

/-- Joining path segments with `/`. -/
def joinSl (segs : List Str) : Str := joinWithChar '/' segs

/-- Normalisation of the segments of an absolute POSIX path, as performed
by Node's `path.resolve`/`path.normalize`: empty and `.` segments are
dropped, and `..` pops the previous segment (or is dropped at the root). -/
def normSegs (segs : List Str) : List Str :=
  segs.foldl
    (fun acc s =>
      if s = [] ∨ s = ".".data then acc
      else if s = "..".data then acc.dropLast
      else acc ++ [s])
    []

/-- Model of Node's `path.resolve(root, req)` for an absolute `root`
(the server's `ROOT_DIR`): an absolute `req` wins, otherwise `req` is
resolved against `root`; the concatenation is then normalised. -/
def pathResolve (root req : Str) : Str :=
  let s := if req.head? = some '/' then req else root ++ '/' :: req
  '/' :: joinSl (normSegs (splitSl s))

/-- The sandbox check of `resolveSafePath` from the server: resolve the
requested path against `ROOT_DIR` and reject it when the resolved string
does not start with `ROOT_DIR`. -/
def resolveSafePath (rootDir req : Str) : Option Str :=
  let resolved := pathResolve rootDir req
  if rootDir.isPrefixOf resolved then some resolved else none

/-- The confinement property the spec ascribes to the path sandbox: the
path is the browsing root itself or lies strictly inside it (the root
followed by a path separator is a prefix). -/
def confinedToRoot (rootDir p : Str) : Prop :=
  p = rootDir ∨ (rootDir ++ '/' :: []).isPrefixOf p

/-! ## Auth gate -/

/-- Token-relevant data of an incoming request: the raw `authorization`
header, the raw `x-file-explorer-token` header, and the raw `token`
query parameter.  A header or parameter that is absent is the empty
string, matching the server's `c.req.header(...) || ""` reads. -/
structure ApiRequest where
  authorizationHeader : Str
  customTokenHeader : Str
  queryToken : Str

/-- Model of `getTokenFromRequest`: a `Bearer` token from the
`authorization` header, else the custom header, else the `token` query
parameter; the bearer branch returns `null` when the token after
`Bearer ` trims to nothing. -/
def getTokenFromRequest (r : ApiRequest) : Option Str :=
  let ah := jsTrim r.authorizationHeader
  if "bearer ".data.isPrefixOf (lowerStr ah) then
    let token := jsTrim (ah.drop 7)
    if token = [] then none else some token
  else
    let ch := jsTrim r.customTokenHeader
    if ch ≠ [] then some ch
    else
      let q := jsTrim r.queryToken
      if q ≠ [] then some q else none

/-- Roles assigned by the auth gate. -/
inductive AuthRole where
  | admin
  | read
deriving DecidableEq, Repr

/-- Auth configuration: the trimmed admin and read tokens from the
environment (empty when unconfigured). -/
structure AuthConfig where
  adminToken : Str
  readToken : Str

/-- Model of `AUTH_ENABLED`: some token is configured. -/
def authEnabled (cfg : AuthConfig) : Prop :=
  cfg.adminToken ≠ [] ∨ cfg.readToken ≠ []

instance (cfg : AuthConfig) : Decidable (authEnabled cfg) := by
  unfold authEnabled; infer_instance

/-- Model of `getAuthRole`: with auth disabled everyone is admin;
otherwise a (truthy) token is compared against the configured admin and
read tokens in that order. -/
def getAuthRole (cfg : AuthConfig) (token : Option Str) : Option AuthRole :=
  if ¬ authEnabled cfg then some .admin
  else
    match token with
    | none => none
    | some t =>
      if t ≠ [] ∧ cfg.adminToken ≠ [] ∧ t = cfg.adminToken then some .admin
      else if t ≠ [] ∧ cfg.readToken ≠ [] ∧ t = cfg.readToken then some .read
      else none

/-- A write method is anything other than GET/HEAD/OPTIONS after
upper-casing, as in the middleware. -/
def isWriteMethod (m : Str) : Bool :=
  let mu := upperStr m
  ¬ (mu = "GET".data ∨ mu = "HEAD".data ∨ mu = "OPTIONS".data)

/-- Outcome of the auth middleware. -/
inductive AuthDecision where
  | pass
  | unauthorized
  | forbidden
deriving DecidableEq, Repr

/-- Model of the `/api/*` auth middleware: the status probe is always
passed through; with auth disabled everything passes; otherwise a
missing role is 401 and a non-admin role on a write method is 403. -/
def authGate (cfg : AuthConfig) (path method : Str) (token : Option Str) :
    AuthDecision :=
  if path = "/api/auth/status".data then .pass
  else if ¬ authEnabled cfg then .pass
  else
    match getAuthRole cfg token with
    | none => .unauthorized
    | some role =>
      if isWriteMethod method ∧ role ≠ .admin then .forbidden
      else .pass

/-! ## Forwarded Authorization header -/

/-- Model of `normalizeBearer`. -/
def normalizeBearer (token : Str) : Str :=
  if "Bearer ".data.isPrefixOf token then token else "Bearer ".data ++ token

/-- Model of `getForwardAuthHeader`: an explicit (device) token wins,
else the caller's incoming token, else the configured admin token, else
no header. -/
def getForwardAuthHeader (adminToken : Str) (r : ApiRequest)
    (explicitToken : Option Str) : Option Str :=
  let token := jsTrim (explicitToken.getD [])
  if token ≠ [] then some (normalizeBearer token)
  else
    match getTokenFromRequest r with
    | some incoming => some (normalizeBearer incoming)
    | none =>
      if adminToken ≠ [] then some (normalizeBearer adminToken) else none

/-- The bearer token carried by a request, per the spec's description:
the trimmed remainder of the `authorization` header when it starts
(case-insensitively) with `Bearer `, else nothing. -/
def bearerTokenOf (r : ApiRequest) : Str :=
  let ah := jsTrim r.authorizationHeader
  if "bearer ".data.isPrefixOf (lowerStr ah) then jsTrim (ah.drop 7) else []

/-- First truthy (non-empty) string of a candidate list. -/
def firstTruthy (l : List Str) : Option Str := l.find? (fun s => s ≠ [])

/-- The spec's reading of the caller's incoming token: the first
non-empty among bearer token, custom header and query parameter, in
that order. -/
def callerTokenSpec (r : ApiRequest) : Option Str :=
  firstTruthy [bearerTokenOf r, jsTrim r.customTokenHeader, jsTrim r.queryToken]

/-- The spec's reading of the forwarded Authorization header: strict
priority device token → caller token → admin token → none, the winner
sent in Bearer form. -/
def forwardAuthSpec (adminToken : Str) (r : ApiRequest)
    (explicitToken : Option Str) : Option Str :=
  (firstTruthy
      [jsTrim (explicitToken.getD []), (callerTokenSpec r).getD [], adminToken]).map
    normalizeBearer

/-! ## Lemmas about trimming -/

theorem dropWhile_head_false {p : Char → Bool} {l r : Str} {c : Char}
    (h : l.dropWhile p = c :: r) : p c = false := by
  induction l with
  | nil => simp [List.dropWhile] at h
  | cons a as ih =>
    rw [List.dropWhile] at h
    by_cases hp : p a
    · simp [hp] at h; exact ih h
    · simp [hp] at h
      rcases h with ⟨h1, _⟩
      subst h1
      simpa using hp

theorem dropWhile_suffix_of (p : Char → Bool) (l : Str) :
    ∃ pre, l = pre ++ l.dropWhile p := by
  induction l with
  | nil => exact ⟨[], rfl⟩
  | cons a as ih =>
    rw [List.dropWhile]
    by_cases hp : p a
    · rcases ih with ⟨pre, hpre⟩
      exact ⟨a :: pre, by simp [hp, ← hpre]⟩
    · exact ⟨[], by simp [hp]⟩

theorem trimRightWs_getLast_not_ws {l : Str} {c : Char}
    (h : (trimRightWs l).getLast? = some c) : isWs c = false := by
  unfold trimRightWs at h
  rw [List.getLast?_reverse] at h
  rcases hd : l.reverse.dropWhile isWs with _ | ⟨a, as⟩
  · rw [hd] at h; simp at h
  · rw [hd] at h
    simp at h
    rw [← h]
    exact dropWhile_head_false hd

theorem jsTrim_getLast_not_ws {l : Str} {c : Char}
    (h : (jsTrim l).getLast? = some c) : isWs c = false :=
  trimRightWs_getLast_not_ws h

theorem jsTrim_ne_nil_of_getLast_not_ws {l : Str} {c : Char}
    (hl : l.getLast? = some c) (hc : isWs c = false) : jsTrim l ≠ [] := by
  unfold jsTrim trimRightWs trimLeftWs
  intro hcon
  have h1 : l.reverse.head? = some c := by
    rw [List.head?_reverse]; exact hl
  have hrev : (l.dropWhile isWs).reverse.dropWhile isWs = [] := by
    have := congrArg List.reverse hcon
    simpa using this
  rw [List.dropWhile_eq_nil_iff] at hrev
  -- the last element of `l` survives the left trim, since it is not ws
  rcases dropWhile_suffix_of isWs l with ⟨pre, hpre⟩
  have hne : l.dropWhile isWs ≠ [] := by
    intro hnil
    rw [List.dropWhile_eq_nil_iff] at hnil
    have hmem : c ∈ l := by
      rcases l with _ | ⟨a, as⟩
      · simp at hl
      · exact List.mem_of_mem_getLast? hl
    have := hnil c hmem
    rw [hc] at this; exact Bool.noConfusion this
  have hlast : (l.dropWhile isWs).getLast? = some c := by
    rw [hpre] at hl
    rwa [List.getLast?_append_of_ne_nil pre hne] at hl
  have hcmem : c ∈ (l.dropWhile isWs).reverse := by
    rw [List.mem_reverse]
    exact List.mem_of_mem_getLast? hlast
  have := hrev c hcmem
  rw [hc] at this; exact Bool.noConfusion this

theorem getLast?_map (f : Char → Char) (l : Str) :
    (l.map f).getLast? = l.getLast?.map f := by
  induction l with
  | nil => rfl
  | cons a as ih =>
    rcases as with _ | ⟨b, bs⟩
    · rfl
    · simpa [List.getLast?_cons_cons] using ih

theorem jsLowerChar_eq_space {c : Char} (h : jsLowerChar c = ' ') : c = ' ' := by
  unfold jsLowerChar at h
  split at h <;> first | (exact absurd h (by decide)) | exact h

/-- Core of the bearer-branch argument, for any end-trimmed string `ah`:
a case-insensitive `Bearer ` prefix forces a non-space character after
the prefix, so the token after `Bearer ` trims to something non-empty. -/
theorem bearer_token_core {ah : Str}
    (hws : ∀ c, ah.getLast? = some c → isWs c = false)
    (hp : "bearer ".data.isPrefixOf (lowerStr ah)) :
    jsTrim (ah.drop 7) ≠ [] := by
  rw [List.isPrefixOf_iff_prefix] at hp
  rcases hp with ⟨rest, hrest⟩
  have hlen : ah.length = 7 + rest.length := by
    have := congrArg List.length hrest
    simp [lowerStr] at this
    omega
  rcases hr : rest with _ | ⟨c, cs⟩
  -- rest empty: ah is exactly a 7-character string lowering to "bearer ",
  -- whose last character lowers to a space, contradicting trimming
  · subst hr
    have hlast : (lowerStr ah).getLast? = some ' ' := by
      rw [← hrest]; decide
    rw [lowerStr, getLast?_map] at hlast
    rcases hl : ah.getLast? with _ | d
    · rw [hl] at hlast; exact absurd hlast (by simp)
    · rw [hl] at hlast
      simp at hlast
      have hd : d = ' ' := jsLowerChar_eq_space hlast
      have := hws d hl
      rw [hd] at this
      exact absurd this (by decide)
  -- rest nonempty: the last character of ah is not ws and survives into
  -- the dropped tail, so the trimmed tail is nonempty
  · have htne : ah.drop 7 ≠ [] := by
      intro hn
      have := congrArg List.length hn
      simp [hlen, hr] at this
    have hlast2 : ah.getLast? = (ah.drop 7).getLast? := by
      conv_lhs => rw [← List.take_append_drop 7 ah]
      rw [List.getLast?_append_of_ne_nil _ htne]
    rcases hgl : (ah.drop 7).getLast? with _ | d
    · exfalso
      rcases hx : ah.drop 7 with _ | ⟨a, as⟩
      · exact htne hx
      · rw [hx] at hgl; simp at hgl
    · have hnw : isWs d = false := hws d (by rw [hlast2, hgl])
      exact jsTrim_ne_nil_of_getLast_not_ws hgl hnw

/-- In the bearer branch of `getTokenFromRequest` the extracted token is
never empty, since the header value has already been trimmed. -/
theorem bearer_token_ne_nil {raw : Str}
    (hp : "bearer ".data.isPrefixOf (lowerStr (jsTrim raw))) :
    jsTrim ((jsTrim raw).drop 7) ≠ [] :=
  bearer_token_core (fun _ h => jsTrim_getLast_not_ws h) hp

/-- The incoming-token extraction agrees with the spec's ordered
candidate list: bearer token, then custom header, then query parameter,
first non-empty wins.  The agreement is not definitional: the code's
bearer branch can return `null` without falling through, but only on an
empty bearer token, which trimming makes impossible. -/
theorem getTokenFromRequest_eq_callerTokenSpec (r : ApiRequest) :
    getTokenFromRequest r = callerTokenSpec r := by
  unfold getTokenFromRequest callerTokenSpec bearerTokenOf firstTruthy
  by_cases hp : "bearer ".data.isPrefixOf (lowerStr (jsTrim r.authorizationHeader))
  · have hne := bearer_token_ne_nil hp
    simp [hp, hne]
  · by_cases hc : jsTrim r.customTokenHeader = []
    · by_cases hq : jsTrim r.queryToken = [] <;> simp [hp, hc, hq]
    · simp [hp, hc]

/-- The incoming-token extraction never yields an empty token. -/
theorem getTokenFromRequest_some_ne_nil {r : ApiRequest} {t : Str}
    (h : getTokenFromRequest r = some t) : t ≠ [] := by
  unfold getTokenFromRequest at h
  by_cases hp : "bearer ".data.isPrefixOf (lowerStr (jsTrim r.authorizationHeader))
  · have hne := bearer_token_ne_nil hp
    simp [hp, hne] at h
    rw [← h]; exact hne
  · by_cases hc : jsTrim r.customTokenHeader = []
    · by_cases hq : jsTrim r.queryToken = []
      · simp [hp, hc, hq] at h
      · simp [hp, hc, hq] at h; rw [← h]; exact hq
    · simp [hp, hc] at h; rw [← h]; exact hc

/-- C1: the claim states that `resolveSafePath` never yields a path
outside the browsing root, naming sibling directories that extend the
root as a string as the critical case.  The code fails exactly there:
with root `/home/user/sandbox`, requesting `../sandbox-sibling` resolves
to `/home/user/sandbox-sibling`, which passes the bare `startsWith`
check and is returned although it is not the root and not inside it. -/
theorem resolveSafePath_sibling_escape :
    resolveSafePath "/home/user/sandbox".data "../sandbox-sibling".data
      = some "/home/user/sandbox-sibling".data
    ∧ ¬ confinedToRoot "/home/user/sandbox".data "/home/user/sandbox-sibling".data := by
  constructor
  · decide
  · unfold confinedToRoot; decide

/-- C5: the forwarded Authorization header is resolved with strict
priority — device token, then caller's incoming token (bearer header,
custom header, query parameter, in that order), then local admin token,
then none — and the winner is sent in Bearer form. -/
theorem getForwardAuthHeader_priority (adminToken : Str) (r : ApiRequest)
    (explicitToken : Option Str) :
    getForwardAuthHeader adminToken r explicitToken
      = forwardAuthSpec adminToken r explicitToken := by
  unfold getForwardAuthHeader forwardAuthSpec firstTruthy
  rw [getTokenFromRequest_eq_callerTokenSpec]
  by_cases he : jsTrim (explicitToken.getD []) = []
  · rcases ht : callerTokenSpec r with _ | t
    · by_cases ha : adminToken = [] <;> simp [he, ht, ha]
    · have htne : t ≠ [] := by
        rw [← getTokenFromRequest_eq_callerTokenSpec] at ht
        exact getTokenFromRequest_some_ne_nil ht
      simp [he, ht, htne]
  · simp [he]

/-- C2 (amended): with auth enabled, a missing or non-matching token is
rejected with 401 on every `/api/*` route except the status probe; the
read token on a write method is rejected with 403 provided it differs
from the admin token (a read token equal to the admin token is
classified as admin and passes); the admin token is never rejected; with
auth disabled every request is classified admin and passes. -/
theorem authGate_spec (cfg : AuthConfig) (path method : Str)
    (hpath : path ≠ "/api/auth/status".data) :
    (authEnabled cfg →
      authGate cfg path method none = .unauthorized
      ∧ (∀ t, ¬ (cfg.adminToken ≠ [] ∧ t = cfg.adminToken) →
          ¬ (cfg.readToken ≠ [] ∧ t = cfg.readToken) →
          authGate cfg path method (some t) = .unauthorized)
      ∧ (cfg.readToken ≠ [] → cfg.readToken ≠ cfg.adminToken →
          isWriteMethod method = true →
          authGate cfg path method (some cfg.readToken) = .forbidden)
      ∧ (cfg.adminToken ≠ [] →
          authGate cfg path method (some cfg.adminToken) = .pass))
    ∧ (¬ authEnabled cfg →
        ∀ token, getAuthRole cfg token = some .admin
          ∧ authGate cfg path method token = .pass) := by
  constructor
  · intro hen
    refine ⟨?_, ?_, ?_, ?_⟩
    · simp [authGate, hpath, hen, getAuthRole]
    · intro t hta htr
      have h1 : ¬ (t ≠ [] ∧ cfg.adminToken ≠ [] ∧ t = cfg.adminToken) := by
        rintro ⟨_, h2, h3⟩; exact hta ⟨h2, h3⟩
      have h2 : ¬ (t ≠ [] ∧ cfg.readToken ≠ [] ∧ t = cfg.readToken) := by
        rintro ⟨_, h2, h3⟩; exact htr ⟨h2, h3⟩
      simp [authGate, hpath, hen, getAuthRole, h1, h2]
    · intro hr hne hw
      have h1 : ¬ (cfg.adminToken ≠ [] ∧ cfg.readToken = cfg.adminToken) := by
        rintro ⟨_, h3⟩; exact hne h3
      simp [authGate, hpath, hen, getAuthRole, h1, hr, hw]
    · intro ha
      simp [authGate, hpath, hen, getAuthRole, ha]
  · intro hen token
    constructor
    · simp [getAuthRole, hen]
    · simp [authGate, hpath, hen]

/-- Witness for C2 at a concrete configuration: distinct admin and read
tokens, write rejected for read, admin always passes, missing and bogus
tokens rejected, and a token-free configuration passes everything. -/
theorem authGate_spec_witness :
    authGate ⟨"a".data, "r".data⟩ "/api/files".data "POST".data (some "r".data)
        = .forbidden
    ∧ authGate ⟨"a".data, "r".data⟩ "/api/files".data "POST".data (some "a".data)
        = .pass
    ∧ authGate ⟨"a".data, "r".data⟩ "/api/files".data "GET".data none
        = .unauthorized
    ∧ authGate ⟨"a".data, "r".data⟩ "/api/files".data "GET".data (some "x".data)
        = .unauthorized
    ∧ authGate ⟨[], []⟩ "/api/devices".data "POST".data none = .pass := by
  have h1 := authGate_spec ⟨"a".data, "r".data⟩ "/api/files".data "POST".data
    (by decide)
  have h2 := authGate_spec ⟨"a".data, "r".data⟩ "/api/files".data "GET".data
    (by decide)
  have h3 := authGate_spec ⟨[], []⟩ "/api/devices".data "POST".data (by decide)
  refine ⟨?_, ?_, ?_, ?_, ?_⟩
  · exact (h1.1 (by decide)).2.2.1 (by decide) (by decide) (by decide)
  · exact (h1.1 (by decide)).2.2.2 (by decide)
  · exact (h2.1 (by decide)).1
  · exact (h2.1 (by decide)).2.1 "x".data (by decide) (by decide)
  · exact ((h3.2 (by decide)) none).2

/-- C2 counterexample: the claim as stated fails when the admin and read
tokens are configured to the same value — a POST presenting the read
token then passes the gate (the token also matches the admin token)
instead of yielding 403. -/
theorem authGate_equal_tokens_counterexample :
    (AuthConfig.mk "secret".data "secret".data).readToken ≠ []
    ∧ isWriteMethod "POST".data = true
    ∧ authGate ⟨"secret".data, "secret".data⟩ "/api/files".data "POST".data
        (some "secret".data) = .pass := by
  refine ⟨by decide, by decide, by decide⟩

/-! ## Slugs and decimal rendering -/

/-- Characters the slug regex `[^a-z0-9]` keeps: lower-case ASCII
letters and digits. -/
def isSlugChar (c : Char) : Bool := ('a' ≤ c ∧ c ≤ 'z') ∨ ('0' ≤ c ∧ c ≤ '9')

theorem length_dropWhile_le (p : Char → Bool) (l : Str) :
    (l.dropWhile p).length ≤ l.length := by
  induction l with
  | nil => simp [List.dropWhile]
  | cons a as ih =>
    rw [List.dropWhile]
    by_cases hp : p a
    · simp [hp]; omega
    · simp [hp]

/-- Helper for `collapseNonSlug`: `inRun` records whether the previous
character belonged to a non-slug run whose hyphen is already emitted. -/
def collapseAux : Bool → Str → Str
  | _, [] => []
  | inRun, c :: cs =>
    if isSlugChar c then c :: collapseAux false cs
    else if inRun then collapseAux true cs
    else '-' :: collapseAux true cs

/-- Model of `.replace(/[^a-z0-9]+/g, "-")`: each maximal run of
non-slug characters becomes a single hyphen. -/
def collapseNonSlug (l : Str) : Str := collapseAux false l

/-- Model of `.replace(/(^-|-$)/g, "")` applied to a collapsed string:
the regex removes the one possible leading hyphen and the one possible
trailing hyphen. -/
def stripLeadHyphen (l : Str) : Str :=
  if l.head? = some '-' then l.tail else l

/-- Removal of a single trailing hyphen. -/
def stripTrailHyphen (l : Str) : Str := (stripLeadHyphen l.reverse).reverse

/-- Model of the id derivation
`name.toLowerCase().replace(/[^a-z0-9]+/g, "-").replace(/(^-|-$)/g, "")`. -/
def slugify (name : Str) : Str :=
  stripTrailHyphen (stripLeadHyphen (collapseNonSlug (lowerStr name)))

/-- The spec's description of the slug: lowercase, collapse runs of
non-alphanumerics to single hyphens, and remove all leading and trailing
hyphens. -/
def slugSpec (name : Str) : Str :=
  (((collapseNonSlug (lowerStr name)).dropWhile (fun c => c = '-')).reverse.dropWhile
      (fun c => c = '-')).reverse

/-- Model of `hay.includes(needle)` on strings. -/
def strIncludes (hay needle : Str) : Bool :=
  needle.isPrefixOf hay ||
    match hay with
    | [] => false
    | _ :: t => strIncludes t needle

/-- Decimal digits, as JavaScript renders them. -/
def digitChar : Nat → Char
  | 0 => '0' | 1 => '1' | 2 => '2' | 3 => '3' | 4 => '4'
  | 5 => '5' | 6 => '6' | 7 => '7' | 8 => '8' | _ => '9'

/-- Fuel-driven decimal rendering; the fuel only needs to exceed the
number of digits, and `natDec` supplies enough. -/
def natDecAux : Nat → Nat → Str
  | 0, _ => []
  | fuel + 1, n =>
    if n < 10 then [digitChar n]
    else natDecAux fuel (n / 10) ++ [digitChar (n % 10)]

/-- Decimal rendering of a natural number, modelling the template-string
conversion of `Date.now()` in `` `device-${Date.now()}` ``. -/
def natDec (n : Nat) : Str := natDecAux (n + 1) n

/-! ## Device registry -/

/-- A stored device record (`DeviceConfig` in the server). -/
structure DeviceConfig where
  id : Str
  name : Str
  url : Str
  sshHost : Option Str
  sshRoot : Option Str
  authToken : Option Str
  icon : Option Str
  enabled : Bool
deriving DecidableEq, Repr

/-- A public device representation: the spread of a `DeviceConfig`
without its `authToken`, plus `hasAuthToken` (and the `isLocal` marker,
absent — i.e. false — except on the synthetic local device). -/
structure PublicDeviceConfig where
  id : Str
  name : Str
  url : Str
  sshHost : Option Str
  sshRoot : Option Str
  icon : Option Str
  enabled : Bool
  hasAuthToken : Bool
  isLocal : Bool
deriving DecidableEq, Repr

/-- Model of `toPublicDevice`: drop the token, expose its truthiness. -/
def toPublicDevice (d : DeviceConfig) : PublicDeviceConfig :=
  { id := d.id, name := d.name, url := d.url, sshHost := d.sshHost,
    sshRoot := d.sshRoot, icon := d.icon, enabled := d.enabled,
    hasAuthToken := jsTruthy d.authToken, isLocal := false }

/-- The synthetic local device prepended by `GET /api/devices`. -/
def localDeviceEntry (localName localIcon : Str) : PublicDeviceConfig :=
  { id := "local".data, name := localName, url := [], sshHost := none,
    sshRoot := none, icon := some localIcon, enabled := true,
    hasAuthToken := false, isLocal := true }

/-- Model of the `GET /api/devices` handler body. -/
def listDevicesHandler (devices : List DeviceConfig)
    (localName localIcon : Str) : List PublicDeviceConfig :=
  localDeviceEntry localName localIcon :: devices.map toPublicDevice

/-- Request body of `POST /api/devices`; absent fields are `none`. -/
structure AddBody where
  name : Option Str
  url : Option Str
  sshHost : Option Str
  sshRoot : Option Str
  authToken : Option Str
  icon : Option Str

/-- Outcome of a registry mutation: HTTP status, the device list that is
now on disk, whether `saveDevices` ran, and the newly stored device
(for adds). -/
structure RegistryOutcome where
  status : Nat
  devices : List DeviceConfig
  saved : Bool
  newDevice : Option DeviceConfig
deriving Repr

/-- Model of `url.replace(/\/+$/, "")`. -/
def dropTrailingSlashes (l : Str) : Str :=
  (l.reverse.dropWhile (fun c => c = '/')).reverse

/-- Model of `a || dflt` for an optional string `a`. -/
def jsOr (a : Option Str) (dflt : Str) : Str :=
  if jsTruthy a then a.getD [] else dflt

/-- Model of `a || dflt` for a plain string `a`. -/
def strOr (a dflt : Str) : Str := if a ≠ [] then a else dflt

/-- A string stored as an optional field when truthy
(`s ? s : undefined`). -/
def optOfTruthy (s : Str) : Option Str := if s ≠ [] then some s else none

/-- Derived id: the slug of the name, or the timestamp fallback when the
slug is empty. -/
def deriveId (name : Str) (now : Nat) : Str :=
  if slugify name ≠ [] then slugify name else "device-".data ++ natDec now

/-- The remote home directory extracted from the SSH probe output:
`stdout.trim().split("\n").pop() || "/"`. -/
def probeRemoteHome (stdout : Str) : Str :=
  strOr (((splitOnChar '\n' (jsTrim stdout)).getLast?).getD []) "/".data

/-- The SSH device record stored by a successful SSH add. -/
def sshDeviceOf (b : AddBody) (stdout : Str) (now : Nat) : DeviceConfig :=
  { id := deriveId (jsOr b.name (b.sshHost.getD [])) now,
    name := jsOr b.name (b.sshHost.getD []),
    url := [],
    sshHost := some (b.sshHost.getD []),
    sshRoot := some (jsOr b.sshRoot (probeRemoteHome stdout)),
    authToken := none,
    icon := some (jsOr b.icon "🖥️".data),
    enabled := true }

/-- The HTTP device record stored by a successful HTTP add. -/
def httpDeviceOf (b : AddBody) (now : Nat) : DeviceConfig :=
  { id := deriveId (b.name.getD []) now,
    name := b.name.getD [],
    url := dropTrailingSlashes (b.url.getD []),
    sshHost := none,
    sshRoot := none,
    authToken := optOfTruthy (jsTrim (b.authToken.getD [])),
    icon := some (jsOr b.icon "🖥️".data),
    enabled := true }

/-- Model of the `POST /api/devices` handler.  The results of the two
connectivity probes are passed in: `sshProbe` is the `(stdout, exit
code)` of `ssh host "echo ok && echo $HOME"`, and `httpProbeOk` tells
whether `GET {url}/api/files?path=` succeeded with a 2xx status.  `now`
is the timestamp used by the fallback id. -/
def addDevice (devices : List DeviceConfig) (b : AddBody)
    (sshProbe : Str × Nat) (httpProbeOk : Bool) (now : Nat) : RegistryOutcome :=
  if jsTruthy b.sshHost then
    -- SSH device
    let id := deriveId (jsOr b.name (b.sshHost.getD [])) now
    if id = "local".data ∨ ∃ d ∈ devices, d.id = id then
      ⟨409, devices, false, none⟩
    else if sshProbe.2 ≠ 0 ∨ strIncludes sshProbe.1 "ok".data = false then
      ⟨502, devices, false, none⟩
    else
      let device := sshDeviceOf b sshProbe.1 now
      ⟨200, devices ++ [device], true, some device⟩
  else if ¬ jsTruthy b.name ∨ ¬ jsTruthy b.url then
    -- HTTP device with missing fields
    ⟨400, devices, false, none⟩
  else
    -- HTTP device
    let id := deriveId (b.name.getD []) now
    if id = "local".data ∨ ∃ d ∈ devices, d.id = id then
      ⟨409, devices, false, none⟩
    else if ¬ httpProbeOk then
      ⟨502, devices, false, none⟩
    else
      let device := httpDeviceOf b now
      ⟨200, devices ++ [device], true, some device⟩

/-- Request body of `PUT /api/devices/:id`; `none` models an absent
(`undefined`) field, which is left unchanged. -/
structure UpdateBody where
  name : Option Str
  url : Option Str
  authToken : Option Str
  icon : Option Str
  enabled : Option Bool

/-- Field merge performed by the update handler on the matched device. -/
def mergeDevice (d : DeviceConfig) (b : UpdateBody) : DeviceConfig :=
  { d with
    name := b.name.getD d.name,
    url := (b.url.map dropTrailingSlashes).getD d.url,
    authToken :=
      match b.authToken with
      | none => d.authToken
      | some s => if jsTrim s ≠ [] then some (jsTrim s) else none,
    icon := match b.icon with | none => d.icon | some s => some s,
    enabled := b.enabled.getD d.enabled }

/-- Replace the first device with the given id, as
`findIndex` + in-place assignment does. -/
def updateFirst (id : Str) (b : UpdateBody) :
    List DeviceConfig → Option (List DeviceConfig)
  | [] => none
  | d :: ds =>
    if d.id = id then some (mergeDevice d b :: ds)
    else (updateFirst id b ds).map (d :: ·)

/-- Model of the `PUT /api/devices/:id` handler. -/
def updateDevice (devices : List DeviceConfig) (id : Str) (b : UpdateBody) :
    RegistryOutcome :=
  if id = "local".data then ⟨400, devices, false, none⟩
  else
    match updateFirst id b devices with
    | none => ⟨404, devices, false, none⟩
    | some ds => ⟨200, ds, true, none⟩

/-- Model of the `DELETE /api/devices/:id` handler. -/
def deleteDevice (devices : List DeviceConfig) (id : Str) : RegistryOutcome :=
  if id = "local".data then ⟨400, devices, false, none⟩
  else
    let filtered := devices.filter (fun d => ¬ d.id = id)
    if filtered.length = devices.length then ⟨404, devices, false, none⟩
    else ⟨200, filtered, true, none⟩

/-- A device-registry operation together with the environment inputs it
consumes (probe results, timestamp). -/
inductive RegOp where
  | add (b : AddBody) (sshProbe : Str × Nat) (httpProbeOk : Bool) (now : Nat)
  | update (id : Str) (b : UpdateBody)
  | remove (id : Str)

/-- The device list persisted after an operation. -/
def applyOp (devices : List DeviceConfig) : RegOp → List DeviceConfig
  | .add b probe httpOk now => (addDevice devices b probe httpOk now).devices
  | .update id b => (updateDevice devices id b).devices
  | .remove id => (deleteDevice devices id).devices

/-- The registry invariant: no persisted device has the reserved id. -/
def noLocalId (devices : List DeviceConfig) : Prop :=
  ∀ d ∈ devices, d.id ≠ "local".data

/-- The name whose slug becomes the id of an added device: the given
name, or for SSH devices without a name, the SSH host. -/
def addEffectiveName (b : AddBody) : Str :=
  if jsTruthy b.sshHost then jsOr b.name (b.sshHost.getD []) else b.name.getD []

/-- The id-collision condition checked by the add handler. -/
def addConflict (devices : List DeviceConfig) (b : AddBody) (now : Nat) : Prop :=
  deriveId (addEffectiveName b) now = "local".data
    ∨ ∃ d ∈ devices, d.id = deriveId (addEffectiveName b) now

/-! ## Registry lemmas -/

theorem addDevice_preserves_noLocal {devices : List DeviceConfig}
    (b : AddBody) (probe : Str × Nat) (httpOk : Bool) (now : Nat)
    (h : noLocalId devices) :
    noLocalId (addDevice devices b probe httpOk now).devices := by
  unfold addDevice
  dsimp only
  split_ifs <;>
    first
      | exact h
      | (intro d hd
         rcases List.mem_append.mp hd with hold | hnew
         · exact h d hold
         · simp at hnew
           subst hnew
           intro heq
           exact absurd (Or.inl heq) (by assumption))

theorem updateFirst_preserves_noLocal {devices ds : List DeviceConfig}
    {id : Str} {b : UpdateBody}
    (hup : updateFirst id b devices = some ds) (h : noLocalId devices) :
    noLocalId ds := by
  induction devices generalizing ds with
  | nil => simp [updateFirst] at hup
  | cons d rest ih =>
    rw [updateFirst] at hup
    by_cases hid : d.id = id
    · simp [hid] at hup
      subst hup
      intro x hx
      cases hx with
      | head =>
        show (mergeDevice d b).id ≠ "local".data
        have hmid : (mergeDevice d b).id = d.id := rfl
        rw [hmid]
        exact h d (by simp)
      | tail _ hx => exact h x (List.mem_cons_of_mem d hx)
    · simp [hid] at hup
      rcases hup with ⟨ds0, hds0, hds⟩
      subst hds
      intro x hx
      cases hx with
      | head => exact h d (List.mem_cons_self d rest)
      | tail _ hx =>
        exact ih hds0 (fun y hy => h y (List.mem_cons_of_mem d hy)) x hx

theorem deleteDevice_preserves_noLocal {devices : List DeviceConfig} (id : Str)
    (h : noLocalId devices) : noLocalId (deleteDevice devices id).devices := by
  unfold deleteDevice
  dsimp only
  split_ifs
  · exact h
  · exact h
  · intro d hd
    exact h d (List.mem_of_mem_filter hd)

theorem applyOp_preserves_noLocal {devices : List DeviceConfig} (op : RegOp)
    (h : noLocalId devices) : noLocalId (applyOp devices op) := by
  cases op with
  | add b probe httpOk now => exact addDevice_preserves_noLocal b probe httpOk now h
  | update id b =>
    show noLocalId (updateDevice devices id b).devices
    unfold updateDevice
    by_cases hid : id = "local".data
    · simp [hid]; exact h
    · rw [if_neg hid]
      rcases hup : updateFirst id b devices with _ | ds
      · exact h
      · exact updateFirst_preserves_noLocal hup h
  | remove id => exact deleteDevice_preserves_noLocal id h

/-- C3: the reserved id `local` never enters the persisted device list.
Adds whose derived id is `local` or collides fail with 409 and persist
nothing; updates and deletes targeting `local` fail with 400 and persist
nothing; and the no-`local` invariant is preserved by every sequence of
registry operations. -/
theorem local_id_reserved :
    (∀ (devices : List DeviceConfig) (b : AddBody) (probe : Str × Nat)
        (httpOk : Bool) (now : Nat),
      addConflict devices b now →
      (jsTruthy b.sshHost ∨ (jsTruthy b.name ∧ jsTruthy b.url)) →
      (addDevice devices b probe httpOk now).status = 409
      ∧ (addDevice devices b probe httpOk now).devices = devices
      ∧ (addDevice devices b probe httpOk now).saved = false)
    ∧ (∀ (devices : List DeviceConfig) (b : UpdateBody),
      (updateDevice devices "local".data b).status = 400
      ∧ (updateDevice devices "local".data b).devices = devices
      ∧ (updateDevice devices "local".data b).saved = false)
    ∧ (∀ devices : List DeviceConfig,
      (deleteDevice devices "local".data).status = 400
      ∧ (deleteDevice devices "local".data).devices = devices
      ∧ (deleteDevice devices "local".data).saved = false)
    ∧ (∀ (ops : List RegOp) (init : List DeviceConfig),
      noLocalId init → noLocalId (ops.foldl applyOp init)) := by
  refine ⟨?_, ?_, ?_, ?_⟩
  · intro devices b probe httpOk now hcon hmode
    unfold addConflict addEffectiveName at hcon
    unfold addDevice
    dsimp only
    by_cases hssh : jsTruthy b.sshHost
    · rw [if_pos hssh] at hcon
      rw [if_pos hssh, if_pos hcon]
      exact ⟨rfl, rfl, rfl⟩
    · rcases hmode with hm | ⟨hn, hu⟩
      · exact absurd hm hssh
      · rw [if_neg hssh] at hcon
        rw [if_neg hssh, if_neg (by simp [hn, hu]), if_pos hcon]
        exact ⟨rfl, rfl, rfl⟩
  · intro devices b
    unfold updateDevice
    rw [if_pos rfl]
    exact ⟨rfl, rfl, rfl⟩
  · intro devices
    unfold deleteDevice
    rw [if_pos rfl]
    exact ⟨rfl, rfl, rfl⟩
  · intro ops
    induction ops with
    | nil => intro init h; exact h
    | cons op rest ih =>
      intro init h
      exact ih (applyOp init op) (applyOp_preserves_noLocal op h)

/-- Witness for C3: a concrete add whose name slugifies to `local` is
rejected with 409 leaving the registry untouched, `local` cannot be
updated or deleted, and a concrete operation sequence keeps the
invariant. -/
theorem local_id_reserved_witness :
    (addDevice [] ⟨some "Local!".data, some "http://x".data, none, none, none,
        none⟩ ("".data, 1) true 5).status = 409
    ∧ (updateDevice [] "local".data ⟨none, none, none, none, none⟩).status = 400
    ∧ (deleteDevice [] "local".data).status = 400
    ∧ noLocalId ([RegOp.add ⟨some "Box".data, some "http://x".data, none, none,
        none, none⟩ ("".data, 1) true 5].foldl applyOp []) := by
  have h := local_id_reserved
  refine ⟨?_, (h.2.1 [] _).1, (h.2.2.1 []).1, ?_⟩
  · exact (h.1 [] _ ("".data, 1) true 5 (by left; decide)
      (by right; constructor <;> decide)).1
  · exact h.2.2.2 _ [] (by intro d hd; simp at hd)

/-- C10: a failed connectivity probe aborts the add atomically — the
handler answers 502 and the devices file is not written, for both the
SSH probe (non-zero exit or missing `ok` output) and the HTTP probe
(unreachable or non-2xx); more generally no failure status writes the
file. -/
theorem add_probe_failure_atomic
    (devices : List DeviceConfig) (b : AddBody) (probe : Str × Nat)
    (httpOk : Bool) (now : Nat) :
    ((addDevice devices b probe httpOk now).status ≠ 200 →
      (addDevice devices b probe httpOk now).devices = devices
      ∧ (addDevice devices b probe httpOk now).saved = false)
    ∧ (jsTruthy b.sshHost → ¬ addConflict devices b now →
        probe.2 ≠ 0 ∨ strIncludes probe.1 "ok".data = false →
        (addDevice devices b probe httpOk now).status = 502)
    ∧ (¬ jsTruthy b.sshHost → jsTruthy b.name → jsTruthy b.url →
        ¬ addConflict devices b now → httpOk = false →
        (addDevice devices b probe httpOk now).status = 502) := by
  refine ⟨?_, ?_, ?_⟩
  · intro hst
    unfold addDevice at hst ⊢
    dsimp only at hst ⊢
    split_ifs at hst ⊢ <;> first | exact ⟨rfl, rfl⟩ | exact absurd rfl hst
  · intro hssh hcon hfail
    unfold addConflict addEffectiveName at hcon
    rw [if_pos hssh] at hcon
    unfold addDevice
    dsimp only
    rw [if_pos hssh, if_neg hcon, if_pos hfail]
  · intro hssh hn hu hcon hhttp
    unfold addConflict addEffectiveName at hcon
    rw [if_neg hssh] at hcon
    unfold addDevice
    dsimp only
    rw [if_neg hssh, if_neg (by simp [hn, hu]), if_neg hcon,
      if_pos (by simp [hhttp])]

/-- Witness for C10: a concrete SSH add with a failing probe and a
concrete HTTP add with a failing probe both answer 502 without touching
the registry. -/
theorem add_probe_failure_atomic_witness :
    (addDevice [] ⟨none, none, some "mini".data, none, none, none⟩
        ("".data, 255) true 5).status = 502
    ∧ (addDevice [] ⟨none, none, some "mini".data, none, none, none⟩
        ("".data, 255) true 5).devices = []
    ∧ (addDevice [] ⟨some "Mini".data, some "http://mini:3456".data, none, none,
        none, none⟩ ("".data, 0) false 5).status = 502
    ∧ (addDevice [] ⟨some "Mini".data, some "http://mini:3456".data, none, none,
        none, none⟩ ("".data, 0) false 5).devices = [] := by
  have h1 := add_probe_failure_atomic [] ⟨none, none, some "mini".data, none,
    none, none⟩ ("".data, 255) true 5
  have h2 := add_probe_failure_atomic [] ⟨some "Mini".data,
    some "http://mini:3456".data, none, none, none, none⟩ ("".data, 0) false 5
  have hs1 : (addDevice [] ⟨none, none, some "mini".data, none, none, none⟩
      ("".data, 255) true 5).status = 502 :=
    h1.2.1 (by decide) (by unfold addConflict addEffectiveName deriveId; decide)
      (by left; decide)
  have hs2 : (addDevice [] ⟨some "Mini".data, some "http://mini:3456".data,
      none, none, none, none⟩ ("".data, 0) false 5).status = 502 :=
    h2.2.2 (by decide) (by decide) (by decide)
      (by unfold addConflict addEffectiveName deriveId; decide) rfl
  refine ⟨hs1, (h1.1 (by rw [hs1]; decide)).1, hs2, (h2.1 (by rw [hs2]; decide)).1⟩

/-! ## Device proxy routing -/

/-- Outcome of the router prefix of `/api/d/:deviceId/*`: either an
immediate response, the internal re-dispatch for `local`, or the
invocation of one of the two remote adapters. -/
inductive RouteOutcome where
  | localRedispatch
  | notFound
  | forbidden
  | sshAdapter (host root : Str)
  | httpAdapter (device : DeviceConfig)
deriving DecidableEq, Repr

/-- Model of the dispatch prefix of the `app.all("/api/d/:deviceId/*")`
handler: `local` is re-dispatched, an unknown device is 404, a disabled
device is 403, and only then is an adapter selected by the presence of
`sshHost`. -/
def routeDevice (devices : List DeviceConfig) (deviceId : Str) : RouteOutcome :=
  if deviceId = "local".data then .localRedispatch
  else
    match devices.find? (fun d => d.id = deviceId) with
    | none => .notFound
    | some device =>
      if device.enabled = false then .forbidden
      else if jsTruthy device.sshHost then
        .sshAdapter (device.sshHost.getD []) (jsOr device.sshRoot "/".data)
      else .httpAdapter device

/-- Whether a route outcome invokes a remote adapter (spawns SSH or
performs an outbound fetch). -/
def invokesAdapter : RouteOutcome → Bool
  | .sshAdapter _ _ => true
  | .httpAdapter _ => true
  | _ => false

/-- HTTP status of the immediate router responses. -/
def routeStatus : RouteOutcome → Option Nat
  | .notFound => some 404
  | .forbidden => some 403
  | _ => none

/-- C4: for a non-`local` device id, an unknown device yields 404 and a
known-but-disabled device yields 403, and in both cases the router
answers without invoking any adapter (no SSH spawn, no outbound fetch). -/
theorem routeDevice_guards (devices : List DeviceConfig) (deviceId : Str)
    (hlocal : deviceId ≠ "local".data) :
    (devices.find? (fun d => d.id = deviceId) = none →
      routeDevice devices deviceId = .notFound
      ∧ routeStatus (routeDevice devices deviceId) = some 404
      ∧ invokesAdapter (routeDevice devices deviceId) = false)
    ∧ (∀ device, devices.find? (fun d => d.id = deviceId) = some device →
        device.enabled = false →
        routeDevice devices deviceId = .forbidden
        ∧ routeStatus (routeDevice devices deviceId) = some 403
        ∧ invokesAdapter (routeDevice devices deviceId) = false) := by
  constructor
  · intro hfind
    unfold routeDevice
    rw [if_neg hlocal, hfind]
    exact ⟨rfl, rfl, rfl⟩
  · intro device hfind hdis
    unfold routeDevice
    rw [if_neg hlocal, hfind]
    simp only [hdis, if_pos rfl]
    exact ⟨rfl, rfl, rfl⟩

/-- Witness for C4: a concrete unknown id yields 404 and a concrete
disabled device yields 403, neither invoking an adapter. -/
theorem routeDevice_guards_witness :
    routeDevice [] "mini".data = .notFound
    ∧ invokesAdapter (routeDevice [] "mini".data) = false
    ∧ routeDevice
        [{ id := "mini".data, name := "Mini".data, url := "http://m".data,
           sshHost := none, sshRoot := none, authToken := none, icon := none,
           enabled := false }] "mini".data = .forbidden
    ∧ invokesAdapter (routeDevice
        [{ id := "mini".data, name := "Mini".data, url := "http://m".data,
           sshHost := none, sshRoot := none, authToken := none, icon := none,
           enabled := false }] "mini".data) = false := by
  have h1 := routeDevice_guards [] "mini".data (by decide)
  have h2 := routeDevice_guards
    [{ id := "mini".data, name := "Mini".data, url := "http://m".data,
       sshHost := none, sshRoot := none, authToken := none, icon := none,
       enabled := false }] "mini".data (by decide)
  have e1 := h1.1 (by decide)
  have e2 := h2.2
    { id := "mini".data, name := "Mini".data, url := "http://m".data,
      sshHost := none, sshRoot := none, authToken := none, icon := none,
      enabled := false } (by decide) rfl
  exact ⟨e1.1, e1.2.2, e2.1, e2.2.2⟩

/-! ## Public device representations -/

/-- C6: public device representations carry no raw token — only the
boolean `hasAuthToken`, true exactly when a non-empty token is stored;
two stored records that differ only in their token have public images
that agree on everything except possibly `hasAuthToken`; and the device
list endpoint returns only the synthetic local entry and `toPublicDevice`
images. -/
theorem toPublicDevice_redacts :
    (∀ d : DeviceConfig,
      (toPublicDevice d).hasAuthToken = true
        ↔ ∃ t, d.authToken = some t ∧ t ≠ [])
    ∧ (∀ d1 d2 : DeviceConfig,
        d1.id = d2.id → d1.name = d2.name → d1.url = d2.url →
        d1.sshHost = d2.sshHost → d1.sshRoot = d2.sshRoot →
        d1.icon = d2.icon → d1.enabled = d2.enabled →
        toPublicDevice d1
          = { toPublicDevice d2 with
              hasAuthToken := (toPublicDevice d1).hasAuthToken })
    ∧ (∀ (devices : List DeviceConfig) (localName localIcon : Str)
        (p : PublicDeviceConfig),
        p ∈ listDevicesHandler devices localName localIcon →
        p = localDeviceEntry localName localIcon
          ∨ ∃ d ∈ devices, p = toPublicDevice d) := by
  refine ⟨?_, ?_, ?_⟩
  · intro d
    unfold toPublicDevice jsTruthy
    rcases d.authToken with _ | t
    · simp
    · by_cases ht : t = [] <;> simp [ht]
  · intro d1 d2 hid hname hurl hssh hroot hicon hen
    unfold toPublicDevice
    simp [hid, hname, hurl, hssh, hroot, hicon, hen]
  · intro devices localName localIcon p hp
    unfold listDevicesHandler at hp
    cases hp with
    | head => left; rfl
    | tail _ hp =>
      right
      rcases List.mem_map.mp hp with ⟨d, hd, hpd⟩
      exact ⟨d, hd, hpd.symm⟩

/-- Fixture for the C6 witness: a device with a stored token. -/
def tokenDeviceFixture : DeviceConfig :=
  { id := "mini".data, name := "Mini".data, url := "http://m".data,
    sshHost := none, sshRoot := none, authToken := some "s3cret".data,
    icon := none, enabled := true }

/-- Fixture for the C6 witness: the same device without a token. -/
def bareDeviceFixture : DeviceConfig :=
  { id := "mini".data, name := "Mini".data, url := "http://m".data,
    sshHost := none, sshRoot := none, authToken := none,
    icon := none, enabled := true }

/-- Witness for C6: two concrete devices differing only in the stored
token have public images equal up to `hasAuthToken`, which reflects
token presence. -/
theorem toPublicDevice_redacts_witness :
    (toPublicDevice tokenDeviceFixture).hasAuthToken = true
    ∧ toPublicDevice tokenDeviceFixture
      = { (toPublicDevice bareDeviceFixture) with hasAuthToken := true } := by
  have h := toPublicDevice_redacts
  constructor
  · exact (h.1 tokenDeviceFixture).mpr ⟨"s3cret".data, rfl, by decide⟩
  · have h2 := h.2.1 tokenDeviceFixture bareDeviceFixture
      rfl rfl rfl rfl rfl rfl rfl
    have hh : (toPublicDevice tokenDeviceFixture).hasAuthToken = true :=
      (h.1 tokenDeviceFixture).mpr ⟨"s3cret".data, rfl, by decide⟩
    rw [h2, hh]

/-! ## Slug characterisation (C8) -/

/-- No two adjacent hyphens. -/
def noDoubleHyphen (l : Str) : Prop :=
  l.Chain' (fun a b => ¬ (a = '-' ∧ b = '-'))

theorem collapseAux_true_head {l : Str} {c : Char}
    (h : (collapseAux true l).head? = some c) : isSlugChar c = true := by
  induction l with
  | nil => simp [collapseAux] at h
  | cons a as ih =>
    rw [collapseAux] at h
    by_cases ha : isSlugChar a
    · simp [ha] at h; rw [← h]; exact ha
    · simp [ha] at h; exact ih h

theorem collapseAux_noDoubleHyphen (inRun : Bool) (l : Str) :
    noDoubleHyphen (collapseAux inRun l) := by
  induction l generalizing inRun with
  | nil => cases inRun <;> simp [collapseAux, noDoubleHyphen]
  | cons a as ih =>
    rw [collapseAux]
    by_cases ha : isSlugChar a
    · simp only [ha, if_pos]
      rw [noDoubleHyphen, List.chain'_cons']
      refine ⟨?_, ih false⟩
      intro b _
      rintro ⟨hac, _⟩
      rw [hac] at ha
      exact absurd ha (by decide)
    · simp only [ha, if_neg, Bool.false_eq_true]
      cases inRun with
      | true => simpa using ih true
      | false =>
        simp only [Bool.false_eq_true, if_neg, if_false]
        rw [noDoubleHyphen, List.chain'_cons']
        refine ⟨?_, ih true⟩
        intro b hb
        rintro ⟨_, hbc⟩
        have := collapseAux_true_head hb
        rw [hbc] at this
        exact absurd this (by decide)

theorem noDoubleHyphen_dropWhile (p : Char → Bool) {l : Str}
    (h : noDoubleHyphen l) : noDoubleHyphen (l.dropWhile p) := by
  induction l with
  | nil => simpa using h
  | cons a as ih =>
    rw [List.dropWhile]
    by_cases hp : p a
    · simp only [hp, if_pos]
      exact ih ((List.chain'_cons'.mp h).2)
    · simpa [hp] using h

theorem noDoubleHyphen_reverse {l : Str} (h : noDoubleHyphen l) :
    noDoubleHyphen l.reverse := by
  rw [noDoubleHyphen, List.chain'_reverse]
  unfold noDoubleHyphen at h
  exact h.imp (fun {a b} hab => by rw [Function.flip_def]; tauto)

theorem stripLeadHyphen_eq_dropWhile {l : Str} (h : noDoubleHyphen l) :
    stripLeadHyphen l = l.dropWhile (fun c => c = '-') := by
  rcases l with _ | ⟨a, t⟩
  · rfl
  · by_cases ha : a = '-'
    · subst ha
      have h1 : stripLeadHyphen ('-' :: t) = t := by
        simp [stripLeadHyphen]
      rw [h1, List.dropWhile_cons]
      simp only [decide_True, if_true]
      rcases t with _ | ⟨b, t'⟩
      · simp [List.dropWhile]
      · have hb : ¬ (b = '-') := by
          have := (List.chain'_cons'.mp h).1 b (by simp)
          tauto
        rw [List.dropWhile_cons]
        simp [hb]
    · have h1 : stripLeadHyphen (a :: t) = a :: t := by
        simp [stripLeadHyphen, ha]
      rw [h1, List.dropWhile_cons]
      simp [ha]

/-- The code's single edge-hyphen removal equals the spec's removal of
all leading and trailing hyphens, because collapsing leaves at most one
hyphen at each edge. -/
theorem slugify_eq_slugSpec (name : Str) : slugify name = slugSpec name := by
  unfold slugify slugSpec collapseNonSlug
  have h0 := collapseAux_noDoubleHyphen false (lowerStr name)
  rw [stripLeadHyphen_eq_dropWhile h0]
  unfold stripTrailHyphen
  rw [stripLeadHyphen_eq_dropWhile
    (noDoubleHyphen_reverse
      (noDoubleHyphen_dropWhile (fun c => decide (c = '-')) h0))]

/-- C8: a successful add stores a device whose id is the slug of the
effective name (the name, or for SSH adds without a name, the SSH host):
lowercased, maximal non-alphanumeric runs collapsed to single hyphens,
leading and trailing hyphens removed — with the timestamp fallback id
exactly when the slug is empty. -/
theorem device_id_slug :
    (∀ (devices : List DeviceConfig) (b : AddBody) (probe : Str × Nat)
        (httpOk : Bool) (now : Nat),
      (addDevice devices b probe httpOk now).status = 200 →
      ∃ dev, (addDevice devices b probe httpOk now).newDevice = some dev
        ∧ dev.id = deriveId (addEffectiveName b) now
        ∧ (addDevice devices b probe httpOk now).devices = devices ++ [dev])
    ∧ (∀ name, slugify name = slugSpec name)
    ∧ (∀ name now, slugify name ≠ [] → deriveId name now = slugify name)
    ∧ (∀ name now, slugify name = [] →
        deriveId name now = "device-".data ++ natDec now) := by
  refine ⟨?_, slugify_eq_slugSpec, ?_, ?_⟩
  · intro devices b probe httpOk now hst
    unfold addDevice at hst ⊢
    unfold addEffectiveName
    dsimp only at hst ⊢
    split_ifs at hst ⊢ <;>
      first
        | exact ⟨_, rfl, rfl, rfl⟩
        | exact absurd hst (by decide)
        | exact hst.elim
        | simp at hst
  · intro name now h
    unfold deriveId
    rw [if_pos h]
  · intro name now h
    unfold deriveId
    rw [if_neg (not_not_intro h)]

/-- Fixture for the C8 witness: an SSH add with no explicit name. -/
def sshAddFixture : AddBody :=
  { name := none, url := none, sshHost := some "Bens Mini".data,
    sshRoot := none, authToken := none, icon := none }

/-- Witness for C8: the concrete SSH add above succeeds and stores id
`bens-mini`, the slug of the host name. -/
theorem device_id_slug_witness :
    ((addDevice [] sshAddFixture ("ok\n/root".data, 0) true 7).newDevice.map
        (fun d => d.id)) = some "bens-mini".data
    ∧ slugify "Bens MacBook-Air!".data = slugSpec "Bens MacBook-Air!".data := by
  obtain ⟨dev, h1, h2, _⟩ :=
    device_id_slug.1 [] sshAddFixture ("ok\n/root".data, 0) true 7 (by decide)
  constructor
  · rw [h1]
    simp only [Option.map_some']
    rw [h2]
    decide
  · exact device_id_slug.2.1 "Bens MacBook-Air!".data

/-! ## Duplicate destinations (C9) -/

/-- The last `/`-separated segment of a path. -/
def lastSeg (p : Str) : Str := ((splitSl p).getLast?).getD []

/-- Model of Node's `path.extname` (POSIX): the suffix of the basename
from its last dot, empty when there is no dot or the dot is leading. -/
def extname (p : Str) : Str :=
  let b := lastSeg p
  let after := b.reverse.takeWhile (fun c => !(c = '.'))
  if after.length = b.length then []
  else if b.length - after.length - 1 = 0 then []
  else b.drop (b.length - after.length - 1)

/-- Model of Node's `path.basename(p, ext)` (POSIX): the basename with a
proper `ext` suffix stripped. -/
def basenameSuffix (p ext : Str) : Str :=
  let b := lastSeg p
  if ext ≠ [] ∧ ext.isSuffixOf b ∧ ext.length < b.length then
    b.take (b.length - ext.length)
  else b

/-- Model of Node's `path.dirname` (POSIX) for paths without trailing
slashes, which is all the duplicate handlers feed it. -/
def dirname (p : Str) : Str :=
  if '/' ∈ p then
    let d := joinSl (splitSl p).dropLast
    if d = [] then (if p.head? = some '/' then "/".data else ".".data) else d
  else ".".data

/-- Model of Node's `path.join(dir, name)` for an absolute `dir` (the
only use in the duplicate handler). -/
def pathJoinAbs (dir name : Str) : Str :=
  '/' :: joinSl (normSegs (splitSl (dir ++ '/' :: name)))

/-- The n-th candidate copy name: `{base} copy{ext}` first, then
`{base} copy {i}{ext}`. -/
def copyName (base ext : Str) (i : Nat) : Str :=
  if i ≤ 1 then base ++ " copy".data ++ ext
  else base ++ " copy ".data ++ natDec i ++ ext

/-- The n-th candidate destination path tried by the local duplicate
handler (`path.join(dir, copyName)`). -/
def localCopyCandidate (src : Str) (i : Nat) : Str :=
  pathJoinAbs (dirname src)
    (copyName (basenameSuffix src (extname src)) (extname src) i)

/-- The destination used by the SSH duplicate branch:
`` `${dir}/${base} copy${ext}` `` with no probing of existing names. -/
def sshDuplicateDest (root p : Str) : Str :=
  let src := root ++ '/' :: p
  dirname src ++ '/' :: (basenameSuffix src (extname src)
    ++ " copy".data ++ extname src)

/-- The probing loop of the local duplicate handler, bounded by fuel:
try candidate `i`, advance while it exists in the filesystem `ex`. -/
def firstFreeAux (ex : List Str) (src : Str) : Nat → Nat → Option Str
  | 0, _ => none
  | fuel + 1, i =>
    if localCopyCandidate src i ∈ ex then firstFreeAux ex src fuel (i + 1)
    else some (localCopyCandidate src i)

/-- The destination chosen by the local duplicate handler; the fuel
`ex.length + 1` is proved sufficient below, so this equals the
unbounded `while (fs.existsSync(copyPath))` loop. -/
def localDuplicateTarget (ex : List Str) (src : Str) : Option Str :=
  firstFreeAux ex src (ex.length + 1) 1

/-! ### Decimal rendering lemmas -/

/-- Value of a decimal digit character. -/
def digitVal (c : Char) : Nat :=
  if c = '0' then 0 else if c = '1' then 1 else if c = '2' then 2
  else if c = '3' then 3 else if c = '4' then 4 else if c = '5' then 5
  else if c = '6' then 6 else if c = '7' then 7 else if c = '8' then 8 else 9

/-- Decimal value of a digit string. -/
def valDec (l : Str) : Nat := l.foldl (fun a c => a * 10 + digitVal c) 0

theorem valDec_append_digit (l : Str) (c : Char) :
    valDec (l ++ [c]) = valDec l * 10 + digitVal c := by
  unfold valDec
  rw [List.foldl_append]
  rfl

theorem digitVal_digitChar {d : Nat} (h : d < 10) :
    digitVal (digitChar d) = d := by
  interval_cases d <;> decide

theorem natDecAux_val : ∀ (fuel n : Nat), n < fuel →
    valDec (natDecAux fuel n) = n := by
  intro fuel
  induction fuel with
  | zero => intro n h; omega
  | succ fuel ih =>
    intro n h
    rw [natDecAux]
    by_cases h10 : n < 10
    · simp only [h10, if_pos]
      show valDec ([] ++ [digitChar n]) = n
      rw [valDec_append_digit]
      simp [valDec, digitVal_digitChar h10]
    · simp only [h10, if_neg, if_false]
      rw [valDec_append_digit]
      have hdiv : n / 10 < fuel := by
        have := Nat.div_lt_self (by omega : 0 < n) (by omega : 1 < 10)
        omega
      rw [ih (n / 10) hdiv, digitVal_digitChar (Nat.mod_lt n (by omega))]
      omega

theorem natDec_inj {m n : Nat} (h : natDec m = natDec n) : m = n := by
  have hm := natDecAux_val (m + 1) m (by omega)
  have hn := natDecAux_val (n + 1) n (by omega)
  unfold natDec at h
  rw [← hm, ← hn, h]

theorem natDec_ne_nil (n : Nat) : natDec n ≠ [] := by
  unfold natDec natDecAux
  by_cases h10 : n < 10 <;> simp [h10]

theorem digitChar_ne_slash : ∀ n : Nat, ¬ digitChar n = '/'
  | 0 => by decide
  | 1 => by decide
  | 2 => by decide
  | 3 => by decide
  | 4 => by decide
  | 5 => by decide
  | 6 => by decide
  | 7 => by decide
  | 8 => by decide
  | n + 9 => by
    show ¬ ('9' : Char) = '/'
    decide

theorem natDecAux_no_slash : ∀ (fuel n : Nat), '/' ∉ natDecAux fuel n := by
  intro fuel
  induction fuel with
  | zero => intro n h; simp [natDecAux] at h
  | succ fuel ih =>
    intro n h
    rw [natDecAux] at h
    by_cases h10 : n < 10
    · simp [h10] at h
      exact digitChar_ne_slash n h.symm
    · simp [h10] at h
      rcases h with h | h
      · exact ih (n / 10) h
      · exact digitChar_ne_slash (n % 10) h.symm

/-! ### Segment lemmas -/

theorem splitOnChar_ne_nil (sep : Char) (l : Str) : splitOnChar sep l ≠ [] := by
  induction l with
  | nil => simp [splitOnChar]
  | cons c cs ih =>
    rw [splitOnChar]
    by_cases hc : c = sep
    · simp [hc]
    · simp only [hc, if_neg, if_false]
      rcases hs : splitOnChar sep cs with _ | ⟨s, ss⟩
      · exact absurd hs ih
      · simp

theorem splitOnChar_no_sep {sep : Char} {l : Str} {s : Str}
    (hs : s ∈ splitOnChar sep l) : sep ∉ s := by
  induction l generalizing s with
  | nil =>
    simp [splitOnChar] at hs
    simp [hs]
  | cons c cs ih =>
    rw [splitOnChar] at hs
    by_cases hc : c = sep
    · simp [hc] at hs
      rcases hs with hs | hs
      · simp [hs]
      · exact ih hs
    · simp only [hc, if_neg, if_false] at hs
      rcases hsplit : splitOnChar sep cs with _ | ⟨t, ts⟩
      · exact absurd hsplit (splitOnChar_ne_nil sep cs)
      · rw [hsplit] at hs
        cases hs with
        | head =>
          intro hmem
          cases hmem with
          | head => exact hc rfl
          | tail _ hmem =>
            exact ih (by rw [hsplit]; exact List.mem_cons_self t ts) hmem
        | tail _ hs =>
          exact ih (by rw [hsplit]; exact List.mem_cons_of_mem t hs)

theorem splitOnChar_of_no_sep {sep : Char} {l : Str} (h : sep ∉ l) :
    splitOnChar sep l = [l] := by
  induction l with
  | nil => rfl
  | cons c cs ih =>
    rw [splitOnChar]
    have hc : ¬ c = sep := by
      intro hc; exact h (by rw [hc]; exact List.mem_cons_self sep cs)
    simp only [hc, if_neg, if_false]
    rw [ih (fun hmem => h (List.mem_cons_of_mem c hmem))]

theorem splitOnChar_append (sep : Char) (a b : Str) :
    splitOnChar sep (a ++ sep :: b) = splitOnChar sep a ++ splitOnChar sep b := by
  induction a with
  | nil => simp [splitOnChar]
  | cons c cs ih =>
    by_cases hc : c = sep
    · show splitOnChar sep (c :: (cs ++ sep :: b)) = _
      rw [splitOnChar, if_pos hc, ih, splitOnChar, if_pos hc]
      rfl
    · show splitOnChar sep (c :: (cs ++ sep :: b)) = _
      rw [splitOnChar, if_neg hc]
      conv_rhs => rw [splitOnChar, if_neg hc]
      rw [ih]
      rcases hs : splitOnChar sep cs with _ | ⟨s, ss⟩
      · exact absurd hs (splitOnChar_ne_nil sep cs)
      · simp

/-- A clean path segment: non-empty, not a dot segment, no separator. -/
def cleanSeg (s : Str) : Prop :=
  s ≠ [] ∧ s ≠ ".".data ∧ s ≠ "..".data ∧ '/' ∉ s

instance (s : Str) : Decidable (cleanSeg s) := by
  unfold cleanSeg; infer_instance

theorem normSegs_append_single {A : List Str} {n : Str} (h : cleanSeg n) :
    normSegs (A ++ [n]) = normSegs A ++ [n] := by
  unfold normSegs
  rw [List.foldl_append]
  simp only [List.foldl]
  rw [if_neg (by rcases h with ⟨h1, h2, _, _⟩; simp [h1, h2]),
    if_neg h.2.2.1]

theorem joinSl_append_single (A : List Str) (n : Str) :
    joinSl (A ++ [n]) = if A = [] then n else joinSl A ++ '/' :: n := by
  induction A with
  | nil => simp [joinSl, joinWithChar]
  | cons s ss ih =>
    simp only [List.cons_append]
    rcases ss with _ | ⟨t, ts⟩
    · simp [joinSl, joinWithChar]
    · show joinSl (s :: ((t :: ts) ++ [n])) = _
      unfold joinSl joinWithChar
      rcases hcat : (t :: ts) ++ [n] with _ | ⟨u, us⟩
      · simp at hcat
      · rw [← hcat]
        show s ++ '/' :: joinSl ((t :: ts) ++ [n]) = _
        rw [ih]
        simp [joinSl, joinWithChar]

theorem pathJoinAbs_eq (dir n : Str) (h : cleanSeg n) :
    pathJoinAbs dir n = '/' :: joinSl (normSegs (splitSl dir) ++ [n]) := by
  unfold pathJoinAbs splitSl
  rw [splitOnChar_append, splitOnChar_of_no_sep h.2.2.2]
  show '/' :: joinSl (normSegs (splitOnChar '/' dir ++ [n])) = _
  rw [normSegs_append_single h]

theorem pathJoinAbs_inj {dir n1 n2 : Str} (h1 : cleanSeg n1) (h2 : cleanSeg n2)
    (h : pathJoinAbs dir n1 = pathJoinAbs dir n2) : n1 = n2 := by
  rw [pathJoinAbs_eq dir n1 h1, pathJoinAbs_eq dir n2 h2] at h
  simp only [List.cons.injEq, true_and] at h
  rw [joinSl_append_single, joinSl_append_single] at h
  by_cases hA : normSegs (splitSl dir) = []
  · simpa [hA] using h
  · simp only [hA, if_neg, if_false] at h
    have := List.append_cancel_left h
    exact List.tail_eq_of_cons_eq this

theorem lastSeg_no_slash (p : Str) : '/' ∉ lastSeg p := by
  unfold lastSeg
  rcases h : (splitSl p).getLast? with _ | s
  · simp
  · simp only [Option.getD_some]
    exact splitOnChar_no_sep (List.mem_of_mem_getLast? h)

theorem extname_no_slash (p : Str) : '/' ∉ extname p := by
  unfold extname
  dsimp only
  split_ifs
  · simp
  · simp
  · intro hmem
    exact lastSeg_no_slash p (List.mem_of_mem_drop hmem)

theorem basenameSuffix_no_slash (p ext : Str) : '/' ∉ basenameSuffix p ext := by
  unfold basenameSuffix
  dsimp only
  split_ifs
  · intro hmem
    exact lastSeg_no_slash p (List.mem_of_mem_take hmem)
  · exact lastSeg_no_slash p

theorem copyName_clean {base ext : Str} (hb : '/' ∉ base) (he : '/' ∉ ext)
    (i : Nat) : cleanSeg (copyName base ext i) := by
  have hlen : 5 ≤ (copyName base ext i).length := by
    unfold copyName
    split_ifs
    · rw [List.append_assoc, List.length_append, List.length_append,
        show (" copy".data).length = 5 from rfl]
      omega
    · rw [List.append_assoc, List.append_assoc, List.length_append,
        List.length_append, show (" copy ".data).length = 6 from rfl]
      omega
  refine ⟨?_, ?_, ?_, ?_⟩
  · intro h; rw [h] at hlen; simp at hlen
  · intro h; rw [h] at hlen
    exact absurd hlen (by decide)
  · intro h; rw [h] at hlen
    exact absurd hlen (by decide)
  · unfold copyName
    split_ifs
    · intro hmem
      rcases List.mem_append.mp hmem with hm | hm
      · rcases List.mem_append.mp hm with hm2 | hm2
        · exact hb hm2
        · revert hm2; decide
      · exact he hm
    · intro hmem
      rcases List.mem_append.mp hmem with hm | hm
      · rcases List.mem_append.mp hm with hm2 | hm2
        · rcases List.mem_append.mp hm2 with hm3 | hm3
          · exact hb hm3
          · revert hm3; decide
        · exact natDecAux_no_slash _ _ hm2
      · exact he hm

theorem copyName_inj {base ext : Str} {i j : Nat} (hi : 1 ≤ i) (hj : 1 ≤ j)
    (h : copyName base ext i = copyName base ext j) : i = j := by
  unfold copyName at h
  by_cases hi1 : i ≤ 1 <;> by_cases hj1 : j ≤ 1
  · omega
  · exfalso
    rw [if_pos hi1, if_neg hj1] at h
    have hlen := congrArg List.length h
    simp only [List.length_append] at hlen
    rw [show (" copy".data).length = 5 from rfl,
      show (" copy ".data).length = 6 from rfl] at hlen
    have h1 : 1 ≤ (natDec j).length :=
      List.length_pos.mpr (natDec_ne_nil j)
    omega
  · exfalso
    rw [if_neg hi1, if_pos hj1] at h
    have hlen := congrArg List.length h
    simp only [List.length_append] at hlen
    rw [show (" copy".data).length = 5 from rfl,
      show (" copy ".data).length = 6 from rfl] at hlen
    have h1 : 1 ≤ (natDec i).length :=
      List.length_pos.mpr (natDec_ne_nil i)
    omega
  · rw [if_neg hi1, if_neg hj1] at h
    simp only [List.append_assoc] at h
    have h2 := List.append_cancel_left h
    have h3 := List.append_cancel_left h2
    have hlen : (natDec i).length = (natDec j).length := by
      have := congrArg List.length h3
      simp only [List.length_append] at this
      omega
    exact natDec_inj (List.append_inj h3 hlen).1

theorem firstFreeAux_some_spec (ex : List Str) (src : Str) :
    ∀ (fuel i0 : Nat) (d : Str), firstFreeAux ex src fuel i0 = some d →
    d ∉ ex ∧ ∃ i, i0 ≤ i ∧ d = localCopyCandidate src i
      ∧ ∀ j, i0 ≤ j → j < i → localCopyCandidate src j ∈ ex := by
  intro fuel
  induction fuel with
  | zero => intro i0 d h; simp [firstFreeAux] at h
  | succ fuel ih =>
    intro i0 d h
    rw [firstFreeAux] at h
    by_cases hmem : localCopyCandidate src i0 ∈ ex
    · rw [if_pos hmem] at h
      obtain ⟨hne, i, hi, hd, hall⟩ := ih (i0 + 1) d h
      refine ⟨hne, i, by omega, hd, ?_⟩
      intro j hj1 hj2
      by_cases hj0 : j = i0
      · rw [hj0]; exact hmem
      · exact hall j (by omega) hj2
    · rw [if_neg hmem] at h
      simp only [Option.some.injEq] at h
      subst h
      exact ⟨hmem, i0, le_refl i0, rfl,
        fun j hj1 hj2 => ((by omega : False).elim)⟩

theorem firstFreeAux_none_mem (ex : List Str) (src : Str) :
    ∀ (fuel i0 : Nat), firstFreeAux ex src fuel i0 = none →
    ∀ k, k < fuel → localCopyCandidate src (i0 + k) ∈ ex := by
  intro fuel
  induction fuel with
  | zero => intro i0 h k hk; omega
  | succ fuel ih =>
    intro i0 h k hk
    rw [firstFreeAux] at h
    by_cases hmem : localCopyCandidate src i0 ∈ ex
    · rw [if_pos hmem] at h
      rcases Nat.eq_zero_or_pos k with hk0 | hkpos
      · subst hk0; simpa using hmem
      · have := ih (i0 + 1) h (k - 1) (by omega)
        have harith : i0 + 1 + (k - 1) = i0 + k := by omega
        rwa [harith] at this
    · rw [if_neg hmem] at h
      simp at h

theorem localDuplicateTarget_isSome (ex : List Str) (src : Str) :
    (localDuplicateTarget ex src).isSome = true := by
  unfold localDuplicateTarget
  rcases hres : firstFreeAux ex src (ex.length + 1) 1 with _ | d
  · exfalso
    have hall := firstFreeAux_none_mem ex src (ex.length + 1) 1 hres
    have hclean : ∀ i : Nat,
        cleanSeg (copyName (basenameSuffix src (extname src)) (extname src) i) :=
      fun i => copyName_clean (basenameSuffix_no_slash src _)
        (extname_no_slash src) i
    have hinj : Function.Injective
        (fun k : Nat => localCopyCandidate src (k + 1)) := by
      intro k1 k2 hk
      simp only [localCopyCandidate] at hk
      have h1 := pathJoinAbs_inj (hclean _) (hclean _) hk
      have h2 := copyName_inj (by omega) (by omega) h1
      omega
    have hnodup : ((List.range (ex.length + 1)).map
        (fun k => localCopyCandidate src (k + 1))).Nodup :=
      (List.nodup_range _).map hinj
    have hsub : ∀ x ∈ (List.range (ex.length + 1)).map
        (fun k => localCopyCandidate src (k + 1)), x ∈ ex := by
      intro x hx
      rcases List.mem_map.mp hx with ⟨k, hk, hxk⟩
      rw [List.mem_range] at hk
      rw [← hxk]
      have := hall k hk
      rwa [Nat.add_comm 1 k] at this
    have hlen : ((List.range (ex.length + 1)).map
        (fun k => localCopyCandidate src (k + 1))).length = ex.length + 1 := by
      simp
    have hcard1 : ((List.range (ex.length + 1)).map
        (fun k => localCopyCandidate src (k + 1))).toFinset.card
          = ex.length + 1 := by
      rw [List.toFinset_card_of_nodup hnodup, hlen]
    have hsubf : ((List.range (ex.length + 1)).map
        (fun k => localCopyCandidate src (k + 1))).toFinset ⊆ ex.toFinset := by
      intro x hx
      rw [List.mem_toFinset] at hx ⊢
      exact hsub x hx
    have := Finset.card_le_card hsubf
    have := List.toFinset_card_le ex
    omega
  · rfl

/-- C9: the SSH duplicate branch targets exactly the single name
`{base} copy{ext}` next to the source, with no probing, whereas the
local handler probes `{base} copy{ext}`, `{base} copy 2{ext}`, … and
returns the first candidate not present on disk — so it never targets an
existing entry, and the bounded probe always finds a free name. -/
theorem duplicate_asymmetry :
    (∀ root p : Str, sshDuplicateDest root p
        = dirname (root ++ '/' :: p)
          ++ '/' :: copyName
            (basenameSuffix (root ++ '/' :: p) (extname (root ++ '/' :: p)))
            (extname (root ++ '/' :: p)) 1)
    ∧ (∀ (ex : List Str) (src d : Str), localDuplicateTarget ex src = some d →
        d ∉ ex ∧ ∃ i, 1 ≤ i ∧ d = localCopyCandidate src i
          ∧ ∀ j, 1 ≤ j → j < i → localCopyCandidate src j ∈ ex)
    ∧ (∀ (ex : List Str) (src : Str),
        (localDuplicateTarget ex src).isSome = true) := by
  refine ⟨?_, ?_, localDuplicateTarget_isSome⟩
  · intro root p
    rfl
  · intro ex src d h
    exact firstFreeAux_some_spec ex src _ _ d h

/-- Witness for C9: with `a copy.txt` already present, the local
handler picks `a copy 2.txt`, which is not on disk, while the SSH
branch always targets `a copy.txt`. -/
theorem duplicate_asymmetry_witness :
    sshDuplicateDest "/r".data "a.txt".data = "/r/a copy.txt".data
    ∧ "/r/a copy 2.txt".data ∉ ["/r/a copy.txt".data]
    ∧ localDuplicateTarget ["/r/a copy.txt".data] "/r/a.txt".data
        = some "/r/a copy 2.txt".data := by
  have h := duplicate_asymmetry.2.1 ["/r/a copy.txt".data] "/r/a.txt".data
    "/r/a copy 2.txt".data (by decide)
  exact ⟨by decide, h.1, by decide⟩

/-! ## Directory listings (C7) -/

/-- Image file extensions recognised by `getFileType`. -/
def imageExts : List Str :=
  [".jpg".data, ".jpeg".data, ".png".data, ".gif".data, ".webp".data,
   ".svg".data, ".ico".data, ".bmp".data]

/-- Video file extensions. -/
def videoExts : List Str :=
  [".mp4".data, ".webm".data, ".mov".data, ".avi".data, ".mkv".data]

/-- Audio file extensions. -/
def audioExts : List Str :=
  [".mp3".data, ".wav".data, ".ogg".data, ".flac".data, ".m4a".data]

/-- Code file extensions. -/
def codeExts : List Str :=
  [".js".data, ".ts".data, ".jsx".data, ".tsx".data, ".py".data, ".rb".data,
   ".go".data, ".rs".data, ".java".data, ".c".data, ".cpp".data, ".h".data,
   ".css".data, ".scss".data, ".html".data, ".json".data, ".yaml".data,
   ".yml".data, ".toml".data, ".md".data, ".sh".data, ".bash".data,
   ".zsh".data]

/-- Document file extensions. -/
def docExts : List Str :=
  [".pdf".data, ".doc".data, ".docx".data, ".xls".data, ".xlsx".data,
   ".ppt".data, ".pptx".data, ".txt".data]

/-- Archive file extensions. -/
def archiveExts : List Str :=
  [".zip".data, ".tar".data, ".gz".data, ".rar".data, ".7z".data]

/-- Model of `getFileType`. -/
def getFileType (filename : Str) : Str :=
  let ext := lowerStr (extname filename)
  if ext ∈ imageExts then "image".data
  else if ext ∈ videoExts then "video".data
  else if ext ∈ audioExts then "audio".data
  else if ext ∈ codeExts then "code".data
  else if ext ∈ docExts then "document".data
  else if ext ∈ archiveExts then "archive".data
  else "file".data

/-- Model of `getFileIcon`. -/
def getFileIcon (filename : Str) (isDir : Bool) : Str :=
  if isDir then "folder".data else getFileType filename

/-- A raw directory entry, as both listings see it: name, kind, stat
size and stat mtime (epoch seconds). -/
structure DirEntryInfo where
  name : Str
  isDir : Bool
  size : Nat
  mtime : Nat
deriving DecidableEq, Repr

/-- A file item of the `{path, breadcrumbs, files}` envelope. -/
structure FileItem where
  name : Str
  path : Str
  isDirectory : Bool
  icon : Str
  size : Nat
  modified : Str
deriving DecidableEq, Repr

/-- The comparator both listings pass to `sort`: directories first, then
`a.name.localeCompare(b.name)`.  The name comparator `lc` is a
parameter, since `localeCompare`'s collation is locale/ICU dependent;
both handlers invoke the identical comparator. -/
def fileCmp (lc : Str → Str → Int) (a b : FileItem) : Int :=
  if a.isDirectory ∧ ¬ b.isDirectory then -1
  else if ¬ a.isDirectory ∧ b.isDirectory then 1
  else lc a.name b.name

/-- Strictly-before test derived from the comparator. -/
def sortLt (lc : Str → Str → Int) (a b : FileItem) : Bool :=
  fileCmp lc a b < 0

/-- Stable insertion with respect to a strictly-before test: a new
element goes after every existing element it is not strictly before. -/
def insertCmp (lt : α → α → Bool) (a : α) : List α → List α
  | [] => [a]
  | b :: l => if lt a b then a :: b :: l else b :: insertCmp lt a l

/-- Stable sort by a comparator-derived strictly-before test, modelling
`Array.prototype.sort` (stable per the JS spec) for a consistent
comparator: elements are inserted left to right, each after its equals. -/
def sortCmp (lt : α → α → Bool) (l : List α) : List α :=
  l.foldl (fun acc a => insertCmp lt a acc) []

/-- Model of Node's `path.relative(from, to)` for absolute arguments:
split both into normalised segments, drop the common prefix, go up for
each remaining `from` segment and then down the remaining `to` segments. -/
def stripCommon : List Str → List Str → List Str × List Str
  | a :: as, b :: bs =>
    if a = b then stripCommon as bs else (a :: as, b :: bs)
  | as, bs => (as, bs)

/-- Model of Node's `path.relative` (POSIX, absolute arguments). -/
def pathRelative (f t : Str) : Str :=
  let p := stripCommon (normSegs (splitSl f)) (normSegs (splitSl t))
  joinSl (List.replicate p.1.length "..".data ++ p.2)

/-- The file item built by the SSH listing for one parsed stat line. -/
def sshFileItem (iso : Nat → Str) (req : Str) (e : DirEntryInfo) : FileItem :=
  { name := e.name,
    path := if req = [] then e.name else req ++ '/' :: e.name,
    isDirectory := e.isDir,
    icon := if e.isDir then "folder".data else getFileType e.name,
    size := if e.isDir then 0 else e.size,
    modified := iso e.mtime }

/-- The file item built by the local `/api/files` handler for one
directory entry (stat assumed to succeed, `iso` models
`Date.toISOString`). -/
def localFileItem (iso : Nat → Str) (rootDir safePath : Str)
    (e : DirEntryInfo) : FileItem :=
  { name := e.name,
    path := pathRelative rootDir (pathJoinAbs safePath e.name),
    isDirectory := e.isDir,
    icon := getFileIcon e.name e.isDir,
    size := e.size,
    modified := iso e.mtime }

/-- The sorted file list of the SSH adapter's `listFiles`. -/
def sshListFilesModel (lc : Str → Str → Int) (iso : Nat → Str) (req : Str)
    (entries : List DirEntryInfo) : List FileItem :=
  sortCmp (sortLt lc) (entries.map (sshFileItem iso req))

/-- The sorted file list of the local `/api/files` handler: hidden-file
filter, item construction, directories-first sort. -/
def localListFilesModel (lc : Str → Str → Int) (iso : Nat → Str)
    (rootDir req : Str) (entries : List DirEntryInfo) (showHidden : Bool) :
    List FileItem :=
  let safePath := pathResolve rootDir req
  sortCmp (sortLt lc)
    ((entries.filter
        (fun e => showHidden || !(decide (e.name.head? = some '.')))).map
      (localFileItem iso rootDir safePath))

/-- The one field on which the two listings differ: the SSH adapter
forces directory sizes to zero. -/
def dirSizeZero (f : FileItem) : FileItem :=
  { f with size := if f.isDirectory then 0 else f.size }

/-- Directories precede non-directories. -/
def dirsFirst (l : List FileItem) : Prop :=
  l.Pairwise (fun a b => b.isDirectory = true → a.isDirectory = true)

/-- A consistent name comparator: antisymmetric signs and transitive. -/
def lcConsistent (lc : Str → Str → Int) : Prop :=
  (∀ x y, lc x y < 0 ↔ 0 < lc y x)
  ∧ (∀ x y z, lc x y ≤ 0 → lc y z ≤ 0 → lc x z ≤ 0)

/-! ### Path lemmas for the listing equivalence -/

theorem joinWithChar_cons_head (sep c : Char) (s : Str) (ss : List Str) :
    joinWithChar sep ((c :: s) :: ss) = c :: joinWithChar sep (s :: ss) := by
  rcases ss with _ | ⟨t, ts⟩
  · rfl
  · rfl

theorem joinSl_splitSl (l : Str) : joinSl (splitSl l) = l := by
  induction l with
  | nil => rfl
  | cons c cs ih =>
    show joinSl (splitOnChar '/' (c :: cs)) = c :: cs
    rw [splitOnChar]
    by_cases hc : c = '/'
    · rw [if_pos hc]
      rcases hs : splitOnChar '/' cs with _ | ⟨s, ss⟩
      · exact absurd hs (splitOnChar_ne_nil '/' cs)
      · show joinWithChar '/' ([] :: s :: ss) = c :: cs
        have h1 : joinWithChar '/' ([] :: s :: ss)
            = '/' :: joinWithChar '/' (s :: ss) := rfl
        rw [h1, hc]
        congr 1
        show joinSl (s :: ss) = cs
        rw [← hs]
        exact ih
    · rw [if_neg hc]
      rcases hs : splitOnChar '/' cs with _ | ⟨s, ss⟩
      · exact absurd hs (splitOnChar_ne_nil '/' cs)
      · show joinWithChar '/' ((c :: s) :: ss) = c :: cs
        rw [joinWithChar_cons_head]
        congr 1
        show joinSl (s :: ss) = cs
        rw [← hs]
        exact ih

theorem splitSl_joinSl {segs : List Str} (hne : segs ≠ [])
    (hno : ∀ s ∈ segs, '/' ∉ s) : splitSl (joinSl segs) = segs := by
  induction segs with
  | nil => exact absurd rfl hne
  | cons s ss ih =>
    rcases ss with _ | ⟨t, ts⟩
    · show splitSl s = [s]
      exact splitOnChar_of_no_sep (hno s (by simp))
    · show splitSl (s ++ '/' :: joinWithChar '/' (t :: ts)) = s :: t :: ts
      unfold splitSl
      rw [splitOnChar_append, splitOnChar_of_no_sep (hno s (by simp))]
      have h2 := ih (by simp)
        (fun x hx => hno x (List.mem_cons_of_mem s hx))
      unfold splitSl joinSl at h2
      rw [h2]
      rfl

theorem normSegs_aux_clean : ∀ (B : List Str) (acc : List Str),
    (∀ s ∈ B, cleanSeg s) →
    List.foldl
      (fun acc s =>
        if s = [] ∨ s = ".".data then acc
        else if s = "..".data then acc.dropLast
        else acc ++ [s]) acc B = acc ++ B := by
  intro B
  induction B with
  | nil => intro acc _; simp
  | cons b bs ih =>
    intro acc h
    have hb := h b (by simp)
    rw [List.foldl_cons,
      if_neg (by rcases hb with ⟨h1, h2, _, _⟩; simp [h1, h2]),
      if_neg hb.2.2.1,
      ih (acc ++ [b]) (fun x hx => h x (List.mem_cons_of_mem b hx))]
    simp

theorem normSegs_append_clean (A B : List Str) (h : ∀ s ∈ B, cleanSeg s) :
    normSegs (A ++ B) = normSegs A ++ B := by
  unfold normSegs
  rw [List.foldl_append]
  exact normSegs_aux_clean B _ h

theorem normSegs_nil_cons (l : List Str) : normSegs ([] :: l) = normSegs l := by
  unfold normSegs
  rfl

theorem normSegs_clean {B : List Str} (h : ∀ s ∈ B, cleanSeg s) :
    normSegs B = B := by
  have := normSegs_append_clean [] B h
  simpa using this

theorem normSegs_append_nil_seg (A : List Str) :
    normSegs (A ++ [[]]) = normSegs A := by
  unfold normSegs
  rw [List.foldl_append]
  rfl

theorem clean_req_head {req : Str} (h : ∀ s ∈ splitSl req, cleanSeg s) :
    ¬ req.head? = some '/' := by
  rcases req with _ | ⟨c, cs⟩
  · simp
  · intro hc
    simp only [List.head?_cons, Option.some.injEq] at hc
    subst hc
    have hmem : ([] : Str) ∈ splitSl ('/' :: cs) := by
      show ([] : Str) ∈ splitOnChar '/' ('/' :: cs)
      rw [splitOnChar, if_pos rfl]
      exact List.mem_cons_self _ _
    exact (h [] hmem).1 rfl

theorem clean_req_ne_nil {req : Str} (h : ∀ s ∈ splitSl req, cleanSeg s) :
    req ≠ [] := by
  intro h0
  subst h0
  have hmem : ([] : Str) ∈ splitSl ([] : Str) := by
    show ([] : Str) ∈ splitOnChar '/' []
    simp [splitOnChar]
  exact (h [] hmem).1 rfl

theorem pathResolve_clean {R : Str} {rsegs : List Str} {req : Str}
    (hR : splitSl R = [] :: rsegs)
    (hrclean : ∀ s ∈ rsegs, cleanSeg s)
    (hreq : req = [] ∨ ∀ s ∈ splitSl req, cleanSeg s) :
    pathResolve R req
      = '/' :: joinSl (rsegs ++ (if req = [] then [] else splitSl req)) := by
  unfold pathResolve
  rcases hreq with hnil | hclean
  · subst hnil
    dsimp only
    rw [if_neg (by simp), if_pos rfl]
    show '/' :: joinSl (normSegs (splitOnChar '/' (R ++ '/' :: []))) = _
    rw [splitOnChar_append]
    show '/' :: joinSl (normSegs (splitSl R ++ splitOnChar '/' [])) = _
    rw [hR,
      show splitOnChar '/' ([] : Str) = [[]] from rfl,
      show ([] : Str) :: rsegs ++ [[]] = [] :: (rsegs ++ [[]]) from rfl,
      normSegs_nil_cons, normSegs_append_nil_seg, normSegs_clean hrclean]
    simp
  · have hne := clean_req_ne_nil hclean
    dsimp only
    rw [if_neg (clean_req_head hclean), if_neg hne]
    show '/' :: joinSl (normSegs (splitOnChar '/' (R ++ '/' :: req))) = _
    rw [splitOnChar_append]
    show '/' :: joinSl (normSegs (splitSl R ++ splitSl req)) = _
    rw [hR, show ([] : Str) :: rsegs ++ splitSl req
        = [] :: (rsegs ++ splitSl req) from rfl,
      normSegs_nil_cons, normSegs_append_clean rsegs _ hclean,
      normSegs_clean hrclean]

theorem stripCommon_pref : ∀ (x y : List Str), stripCommon x (x ++ y) = ([], y)
  | [], y => by
    unfold stripCommon
    rcases y with _ | ⟨b, bs⟩ <;> rfl
  | a :: as, y => by
    show stripCommon (a :: as) (a :: (as ++ y)) = ([], y)
    unfold stripCommon
    rw [if_pos rfl]
    exact stripCommon_pref as y

/-- For a normalised absolute root and a clean relative request, the
local handler's `path.relative(ROOT, path.join(safePath, name))` is the
request path extended with the entry name — exactly the SSH listing's
`relativePath`. -/
theorem relative_join_resolve {R : Str} {rsegs : List Str} {req : Str}
    (hR : splitSl R = [] :: rsegs) (hrne : rsegs ≠ [])
    (hrclean : ∀ s ∈ rsegs, cleanSeg s)
    (hreq : req = [] ∨ ∀ s ∈ splitSl req, cleanSeg s)
    {name : Str} (hname : cleanSeg name) :
    pathRelative R (pathJoinAbs (pathResolve R req) name)
      = if req = [] then name else req ++ '/' :: name := by
  have hres := pathResolve_clean hR hrclean hreq
  have hTclean : ∀ s ∈ (if req = [] then ([] : List Str) else splitSl req),
      cleanSeg s := by
    intro s hs
    rcases hreq with hnil | hclean
    · rw [if_pos hnil] at hs; simp at hs
    · rw [if_neg (clean_req_ne_nil hclean)] at hs
      exact hclean s hs
  have hSclean : ∀ s ∈ rsegs ++ (if req = [] then ([] : List Str)
      else splitSl req), cleanSeg s := by
    intro s hs
    rcases List.mem_append.mp hs with h | h
    · exact hrclean s h
    · exact hTclean s h
  have hSne : rsegs ++ (if req = [] then ([] : List Str) else splitSl req)
      ≠ [] := by
    intro h0
    rcases List.append_eq_nil.mp h0 with ⟨h1, _⟩
    exact hrne h1
  have hSno : ∀ s ∈ rsegs ++ (if req = [] then ([] : List Str)
      else splitSl req), '/' ∉ s := fun s hs => (hSclean s hs).2.2.2
  rw [hres, pathJoinAbs_eq _ _ hname]
  have hsplitS : splitSl ('/' :: joinSl (rsegs
      ++ (if req = [] then ([] : List Str) else splitSl req)))
      = [] :: (rsegs ++ (if req = [] then ([] : List Str)
          else splitSl req)) := by
    show splitOnChar '/' ('/' :: _) = _
    rw [splitOnChar, if_pos rfl]
    congr 1
    exact splitSl_joinSl hSne hSno
  rw [hsplitS, normSegs_nil_cons, normSegs_clean hSclean]
  have hsplitT : splitSl ('/' :: joinSl ((rsegs
      ++ (if req = [] then ([] : List Str) else splitSl req)) ++ [name]))
      = [] :: ((rsegs ++ (if req = [] then ([] : List Str)
          else splitSl req)) ++ [name]) := by
    show splitOnChar '/' ('/' :: _) = _
    rw [splitOnChar, if_pos rfl]
    congr 1
    refine splitSl_joinSl (by simp) ?_
    intro s hs
    rcases List.mem_append.mp hs with h | h
    · exact hSno s h
    · simp at h; subst h; exact hname.2.2.2
  have hT : normSegs (splitSl ('/' :: joinSl ((rsegs
      ++ (if req = [] then ([] : List Str) else splitSl req)) ++ [name])))
      = (rsegs ++ (if req = [] then ([] : List Str) else splitSl req))
        ++ [name] := by
    rw [hsplitT, normSegs_nil_cons]
    refine normSegs_clean ?_
    intro s hs
    rcases List.mem_append.mp hs with h | h
    · exact hSclean s h
    · simp at h; subst h; exact hname
  have hF : normSegs (splitSl R) = rsegs := by
    rw [hR, normSegs_nil_cons]
    exact normSegs_clean hrclean
  unfold pathRelative
  rw [hF, hT]
  rw [List.append_assoc]
  rw [stripCommon_pref rsegs _]
  simp only [List.length_nil, List.replicate_zero, List.nil_append]
  rcases hreq with hnil | hclean
  · rw [if_pos hnil]
    simp only [hnil, if_pos]
    show joinSl ([] ++ [name]) = name
    rfl
  · have hne := clean_req_ne_nil hclean
    rw [if_neg hne, if_neg hne]
    rw [joinSl_append_single]
    rw [if_neg (by
      intro h0
      have := splitOnChar_ne_nil '/' req
      exact this h0)]
    rw [joinSl_splitSl]

/-! ### Sort lemmas -/

theorem mem_insertCmp {lt : α → α → Bool} {a x : α} :
    ∀ {l : List α}, x ∈ insertCmp lt a l → x = a ∨ x ∈ l := by
  intro l
  induction l with
  | nil =>
    intro h
    rw [insertCmp] at h
    rcases List.mem_cons.mp h with h1 | h1
    · exact Or.inl h1
    · simp at h1
  | cons b bs ih =>
    intro h
    rw [insertCmp] at h
    by_cases hlt : lt a b
    · rw [if_pos hlt] at h
      rcases List.mem_cons.mp h with h1 | h1
      · exact Or.inl h1
      · exact Or.inr h1
    · rw [if_neg hlt] at h
      rcases List.mem_cons.mp h with h1 | h1
      · exact Or.inr (by rw [h1]; exact List.mem_cons_self b bs)
      · rcases ih h1 with h2 | h2
        · exact Or.inl h2
        · exact Or.inr (List.mem_cons_of_mem b h2)

theorem insertCmp_pairwise {R : α → α → Prop} {lt : α → α → Bool}
    (htrans : ∀ x y z, R x y → R y z → R x z)
    (hlt : ∀ x y, lt x y = true → R x y)
    (hnlt : ∀ x y, lt x y = false → R y x)
    (a : α) : ∀ {l : List α}, l.Pairwise R → (insertCmp lt a l).Pairwise R := by
  intro l
  induction l with
  | nil => intro _; simp [insertCmp]
  | cons b bs ih =>
    intro hp
    rcases List.pairwise_cons.mp hp with ⟨hb, hbs⟩
    rw [insertCmp]
    by_cases h : lt a b
    · rw [if_pos h]
      refine List.pairwise_cons.mpr ⟨?_, hp⟩
      intro x hx
      rcases List.mem_cons.mp hx with h1 | h1
      · rw [h1]; exact hlt a b h
      · exact htrans a b x (hlt a b h) (hb x h1)
    · rw [if_neg h]
      refine List.pairwise_cons.mpr ⟨?_, ih hbs⟩
      intro x hx
      rcases mem_insertCmp hx with hxa | hxl
      · rw [hxa]
        exact hnlt a b (by simpa using h)
      · exact hb x hxl

theorem sortCmp_pairwise {R : α → α → Prop} {lt : α → α → Bool}
    (htrans : ∀ x y z, R x y → R y z → R x z)
    (hlt : ∀ x y, lt x y = true → R x y)
    (hnlt : ∀ x y, lt x y = false → R y x)
    (l : List α) : (sortCmp lt l).Pairwise R := by
  unfold sortCmp
  have hgen : ∀ (l acc : List α), acc.Pairwise R →
      (List.foldl (fun acc a => insertCmp lt a acc) acc l).Pairwise R := by
    intro l
    induction l with
    | nil => intro acc h; exact h
    | cons a as ih =>
      intro acc h
      rw [List.foldl_cons]
      exact ih _ (insertCmp_pairwise htrans hlt hnlt a h)
  exact hgen l [] List.Pairwise.nil

theorem insertCmp_map {f : α → α} {lt : α → α → Bool}
    (hf : ∀ x y, lt (f x) (f y) = lt x y) (a : α) :
    ∀ (l : List α), insertCmp lt (f a) (l.map f) = (insertCmp lt a l).map f := by
  intro l
  induction l with
  | nil => rfl
  | cons b bs ih =>
    show insertCmp lt (f a) (f b :: bs.map f) = _
    rw [insertCmp, insertCmp, hf a b]
    by_cases h : lt a b
    · rw [if_pos h, if_pos h]
      rfl
    · rw [if_neg h, if_neg h]
      show f b :: insertCmp lt (f a) (bs.map f) = f b :: (insertCmp lt a bs).map f
      rw [ih]

theorem sortCmp_map {f : α → α} {lt : α → α → Bool}
    (hf : ∀ x y, lt (f x) (f y) = lt x y) (l : List α) :
    sortCmp lt (l.map f) = (sortCmp lt l).map f := by
  unfold sortCmp
  have hgen : ∀ (l acc : List α),
      List.foldl (fun acc a => insertCmp lt a acc) (acc.map f) (l.map f)
        = (List.foldl (fun acc a => insertCmp lt a acc) acc l).map f := by
    intro l
    induction l with
    | nil => intro acc; rfl
    | cons a as ih =>
      intro acc
      rw [List.map_cons, List.foldl_cons, List.foldl_cons, insertCmp_map hf,
        ih]
  simpa using hgen l []

theorem dirSizeZero_lt (lc : Str → Str → Int) (a b : FileItem) :
    sortLt lc (dirSizeZero a) (dirSizeZero b) = sortLt lc a b := rfl

theorem sortLt_imp_dirs (lc : Str → Str → Int) (x y : FileItem)
    (h : sortLt lc x y = true) : y.isDirectory = true → x.isDirectory = true := by
  intro hy
  unfold sortLt fileCmp at h
  rcases hx : x.isDirectory with _ | _
  · exfalso
    rw [hx, hy] at h
    simp at h
  · rfl

theorem sortLt_false_imp_dirs (lc : Str → Str → Int) (x y : FileItem)
    (h : sortLt lc x y = false) : x.isDirectory = true → y.isDirectory = true := by
  intro hx
  unfold sortLt fileCmp at h
  rcases hy : y.isDirectory with _ | _
  · exfalso
    rw [hx, hy] at h
    simp at h
  · rfl

theorem sortLt_imp_le (lc : Str → Str → Int) (x y : FileItem)
    (h : sortLt lc x y = true) : fileCmp lc x y ≤ 0 := by
  unfold sortLt at h
  simp at h
  omega

theorem fileCmp_le_total (lc : Str → Str → Int) (hc : lcConsistent lc)
    (x y : FileItem) (h : sortLt lc x y = false) : fileCmp lc y x ≤ 0 := by
  unfold sortLt at h
  simp at h
  have h1 := hc.1 x.name y.name
  have h2 := hc.1 y.name x.name
  unfold fileCmp at h ⊢
  rcases hx : x.isDirectory with _ | _ <;> rcases hy : y.isDirectory with _ | _
    <;> rw [hx, hy] at h <;> (try simp at h) <;> (try simp) <;> omega

theorem fileCmp_le_trans (lc : Str → Str → Int) (hc : lcConsistent lc)
    (x y z : FileItem) (h1 : fileCmp lc x y ≤ 0) (h2 : fileCmp lc y z ≤ 0) :
    fileCmp lc x z ≤ 0 := by
  have hl := hc.2 x.name y.name z.name
  unfold fileCmp at h1 h2 ⊢
  rcases hx : x.isDirectory with _ | _ <;> rcases hy : y.isDirectory with _ | _
    <;> rcases hz : z.isDirectory with _ | _
    <;> rw [hx, hy] at h1 <;> rw [hy, hz] at h2
    <;> (try simp at h1) <;> (try simp at h2) <;> (try simp) <;> omega

/-- C7 counterexample: on the same single directory entry the two
listings differ literally — the SSH adapter reports size 0 for the
directory while the local handler reports the stat size — so the file
lists are not equal record-for-record. -/
theorem ssh_local_listing_counterexample :
    sshListFilesModel (fun _ _ => 0) (fun _ => []) []
        [⟨"docs".data, true, 4096, 0⟩]
      ≠ localListFilesModel (fun _ _ => 0) (fun _ => []) "/r".data []
          [⟨"docs".data, true, 4096, 0⟩] true := by
  decide

/-- C7 (amended): given the same directory entries and the same name
comparator, the SSH listing equals the local listing up to the one known
field difference (the SSH adapter zeroes directory sizes); the common
output is directories-first, and sorted by the comparator whenever the
comparator is consistent.  Hypotheses: the browsing root is a normalised
absolute path below `/`, and the request path and entry names are clean
relative segments (no empty, `.`, `..` or `/`-containing segments); the
local hidden-file filter is assumed to keep every given entry, matching
the premise that both sides see the same entries. -/
theorem ssh_local_listing_agree (lc : Str → Str → Int) (iso : Nat → Str)
    (R req : Str) (rsegs : List Str) (entries : List DirEntryInfo)
    (showHidden : Bool)
    (hR : splitSl R = [] :: rsegs) (hrne : rsegs ≠ [])
    (hrclean : ∀ s ∈ rsegs, cleanSeg s)
    (hreq : req = [] ∨ ∀ s ∈ splitSl req, cleanSeg s)
    (hnames : ∀ e ∈ entries, cleanSeg e.name)
    (hhidden : ∀ e ∈ entries,
      (showHidden || !(decide (e.name.head? = some '.'))) = true) :
    sshListFilesModel lc iso req entries
      = (localListFilesModel lc iso R req entries showHidden).map dirSizeZero
    ∧ dirsFirst (sshListFilesModel lc iso req entries)
    ∧ (lcConsistent lc → (sshListFilesModel lc iso req entries).Pairwise
        (fun a b => fileCmp lc a b ≤ 0)) := by
  refine ⟨?_, ?_, ?_⟩
  · unfold sshListFilesModel localListFilesModel
    dsimp only
    rw [List.filter_eq_self.mpr hhidden]
    have hpt : ∀ e ∈ entries, sshFileItem iso req e
        = dirSizeZero (localFileItem iso R (pathResolve R req) e) := by
      intro e he
      have hpath := relative_join_resolve hR hrne hrclean hreq (hnames e he)
      unfold sshFileItem localFileItem dirSizeZero getFileIcon
      rw [hpath]
    rw [List.map_congr_left hpt]
    rw [show (fun e => dirSizeZero (localFileItem iso R (pathResolve R req) e))
        = dirSizeZero ∘ localFileItem iso R (pathResolve R req) from rfl]
    rw [← List.map_map]
    exact sortCmp_map (dirSizeZero_lt lc) _
  · exact sortCmp_pairwise
      (fun x y z hxy hyz hz => hxy (hyz hz))
      (sortLt_imp_dirs lc) (sortLt_false_imp_dirs lc) _
  · intro hc
    exact sortCmp_pairwise
      (fileCmp_le_trans lc hc)
      (sortLt_imp_le lc) (fileCmp_le_total lc hc) _

/-- Witness for C7 at concrete inputs: a directory and two files under
`/home/u`, request path `docs`, constant comparator. -/
theorem ssh_local_listing_agree_witness :
    sshListFilesModel (fun _ _ => 0) (fun _ => []) "docs".data
        [⟨"b.txt".data, false, 2, 0⟩, ⟨"adir".data, true, 4096, 0⟩]
      = (localListFilesModel (fun _ _ => 0) (fun _ => []) "/home/u".data
          "docs".data
          [⟨"b.txt".data, false, 2, 0⟩, ⟨"adir".data, true, 4096, 0⟩]
          true).map dirSizeZero
    ∧ dirsFirst (sshListFilesModel (fun _ _ => 0) (fun _ => []) "docs".data
        [⟨"b.txt".data, false, 2, 0⟩, ⟨"adir".data, true, 4096, 0⟩])
    ∧ (sshListFilesModel (fun _ _ => 0) (fun _ => []) "docs".data
        [⟨"b.txt".data, false, 2, 0⟩, ⟨"adir".data, true, 4096, 0⟩]).Pairwise
          (fun a b => fileCmp (fun _ _ => 0) a b ≤ 0) := by
  have h := ssh_local_listing_agree (fun _ _ => 0) (fun _ => [])
    "/home/u".data "docs".data ["home".data, "u".data]
    [⟨"b.txt".data, false, 2, 0⟩, ⟨"adir".data, true, 4096, 0⟩] true
    (by decide) (by decide) (by decide)
    (Or.inr (by decide)) (by decide) (by decide)
  exact ⟨h.1, h.2.1, h.2.2 (by constructor <;> intros <;> simp)⟩

end FileExplorer
